import Mathlib

/-!
# Shallow embedding of `rx-event-manager` (canonical source: `src/EventManager.ts`)

The embedding models the module-level state of the event manager — the
broadcast subject (`eventManagerCore`), the topic cache (`observables`),
the subscription registry (`subscriptions`) and the latest-value store
(`latestEventData`) — together with the public operations
`observe`, `on`, `once`, `latest`, `change`, `fire`, `off`.

Dynamic JS values are modelled by `JSVal`; payload deliveries to listener
callbacks are recorded in a delivery log, so listeners are identified by a
numeric id and never re-enter the manager.  The RxJS 5 (beta-era, as pinned
by the `Subscription<T>` generic in `lib/EventManager.d.ts`) operator
semantics are embedded directly: `filter`/`map` as the per-topic envelope
match, `take(1)` and `distinctUntilChanged(compare)` as per-subscription
operator state, `setImmediate` as a pending-task queue executed by `tick`.
In that RxJS line a lifted observable subscribes to its source through the
internal subscription path, so streams derived with `take`/
`distinctUntilChanged` are fresh objects whose subscribe method is not the
monkey-patched one installed by `observe`.
-/

namespace RxEM

/-- JS runtime values, with object identity modelled by a numeric id. -/
inductive JSVal where
  | undef
  | null
  | bool (b : Bool)
  | num (n : Int)
  | str (s : String)
  | obj (id : Nat)
deriving Repr, DecidableEq

/-- JS truthiness (`Boolean(v)`).  `NaN` is not modelled. -/
def toBool : JSVal → Bool
  | .undef => false
  | .null => false
  | .bool b => b
  | .num n => !(n == 0)
  | .str s => !(s == "")
  | .obj _ => true

/-- JS property-key coercion (`String(v)`), used when a value indexes one of
the module-level hashes. -/
def jsKey : JSVal → String
  | .undef => "undefined"
  | .null => "null"
  | .bool b => if b then "true" else "false"
  | .num n => toString n
  | .str s => s
  | .obj _ => "[object Object]"

/-- `_isInvalidString` from the source: true unless the value is a non-empty
string. -/
def _isInvalidString : JSVal → Bool
  | .str s => s.length == 0
  | _ => true

/-- A JS value that may be a function: either a plain value or a (binary)
function on values. -/
inductive FnArg where
  | js (v : JSVal)
  | fn (f : JSVal → JSVal → JSVal)

/-- `_isNotFunction` from the source. -/
def _isNotFunction : FnArg → Bool
  | .js _ => true
  | .fn _ => false

/-- JS truthiness of a possibly-function value (functions are truthy). -/
def fnArgToBool : FnArg → Bool
  | .js v => toBool v
  | .fn _ => true

/-- `_defaultComparer` from the source: strict equality `===`. -/
def _defaultComparer (x y : JSVal) : JSVal := .bool (x == y)

/-- `_keySelector` from the source: the identity function. -/
def _keySelector (data : JSVal) : JSVal := data

/-- `_keySelector` called with two arguments, as JS does when it is passed
where a binary compare function is expected: the second argument is ignored. -/
def keySelectorAsCompare (x _y : JSVal) : JSVal := _keySelector x

/-- Association-list lookup (JS hash read `h[k]`). -/
def alistGet {κ α : Type} [DecidableEq κ] : List (κ × α) → κ → Option α
  | [], _ => none
  | (k', v) :: rest, k => if k = k' then some v else alistGet rest k

/-- Association-list update (JS hash write `h[k] = v`), keeping key order. -/
def alistSet {κ α : Type} [DecidableEq κ] : List (κ × α) → κ → α → List (κ × α)
  | [], k, v => [(k, v)]
  | (k', v') :: rest, k, v =>
      if k = k' then (k, v) :: rest else (k', v') :: alistSet rest k v

/-- Association-list deletion (JS `delete h[k]`). -/
def alistRemove {κ α : Type} [DecidableEq κ] : List (κ × α) → κ → List (κ × α)
  | [], _ => []
  | (k', v') :: rest, k =>
      if k = k' then rest else (k', v') :: alistRemove rest k

/-- A latest-value record `{ hasValue, value }`. -/
structure LatestRec where
  hasValue : Bool
  value : JSVal
deriving Repr, DecidableEq

/-- The per-subscription operator chain sitting between the topic stream
(filter by name, project payload) and the destination callback. -/
inductive OpKind where
  | plain
  | take1 (remaining : Nat)
  | distinct (compare : JSVal → JSVal → JSVal) (hasValue : Bool) (value : JSVal)

/-- One subscription attached to the broadcast subject: the topic filter
name, the operator state, the destination listener and the closed flag. -/
structure CoreSub where
  subId : Nat
  event : String
  op : OpKind
  dest : Nat
  live : Bool

/-- The module-level state of the event manager. -/
structure EMState where
  /-- subscriptions of `eventManagerCore`, in subscription order -/
  subject : List CoreSub
  /-- `observables` hash: name ↦ (stream object id, number of
  auto-register wrappers stacked on its `subscribe` method) -/
  obsCache : List (String × Nat × Nat)
  nextObsId : Nat
  nextSubId : Nat
  /-- `subscriptions` hash: name ↦ registered subscription ids (duplicates
  allowed) -/
  registry : List (String × List Nat)
  /-- latest-value record objects, by record id -/
  records : List (Nat × LatestRec)
  /-- `latestEventData` hash: name ↦ record id -/
  latestData : List (String × Nat)
  nextRecId : Nat
  /-- `setImmediate` queue: (subscriber id, captured record id) -/
  pending : List (Nat × Nat)
  /-- deliveries to listener callbacks, in invocation order -/
  log : List (Nat × JSVal)

/-- The state at module load. -/
def emInit : EMState :=
  { subject := [], obsCache := [], nextObsId := 0, nextSubId := 0,
    registry := [], records := [], latestData := [], nextRecId := 0,
    pending := [], log := [] }

/-- Validation errors surfaced to the caller (`TypeError` in the source). -/
inductive EMError where
  | invalidEvent
  | invalidComparer
deriving Repr, DecidableEq

/-- `_registerSubscription` from the source: append the subscription id to
the registry collection for `event`, creating it when absent. -/
def _registerSubscription (st : EMState) (event : String) (sid : Nat) :
    EMState :=
  { st with registry :=
      match alistGet st.registry event with
      | some l => alistSet st.registry event (l ++ [sid])
      | none => alistSet st.registry event [sid] }

/-- Registered subscription ids for a name (empty when the hash has no
entry). -/
def registryOf (st : EMState) (s : String) : List Nat :=
  (alistGet st.registry s).getD []

/-- Number of auto-register wrappers currently stacked on the cached topic
stream's `subscribe` method. -/
def layersOf (st : EMState) (s : String) : Nat :=
  match alistGet st.obsCache s with
  | some (_, l) => l
  | none => 0

/-- Attach a new subscription chain to the broadcast subject (the effect of
reaching `Subject`'s internal subscribe), without any registry bookkeeping. -/
def coreSubscribe (st : EMState) (event : String) (op : OpKind) (dest : Nat) :
    Nat × EMState :=
  let sid := st.nextSubId
  (sid, { st with
            subject := st.subject ++
              [{ subId := sid, event := event, op := op, dest := dest,
                 live := true }],
            nextSubId := sid + 1 })

/-- Register `sid` for `event` a number of times (one per stacked wrapper). -/
def registerTimes (st : EMState) (event : String) (sid : Nat) :
    Nat → EMState
  | 0 => st
  | n + 1 => registerTimes (_registerSubscription st event sid) event sid n

/-- Calling the (monkey-patched) `subscribe` method of the cached topic
stream: the subscription is created and then registered once per stacked
wrapper as the call returns outward through them. -/
def patchedSubscribe (st : EMState) (event : String) (op : OpKind)
    (dest : Nat) : Nat × EMState :=
  let layers := layersOf st event
  let (sid, st') := coreSubscribe st event op dest
  (sid, registerTimes st' event sid layers)

/-- `observe` from the source: validate the name, lazily build and cache the
topic stream, then stack one more auto-register wrapper on its `subscribe`
method.  Returns the (cached) stream object's id. -/
def observe (st : EMState) (event : JSVal) :
    Except EMError (Nat × EMState) :=
  if _isInvalidString event then .error .invalidEvent
  else
    let s := jsKey event
    match alistGet st.obsCache s with
    | some (oid, layers) =>
        .ok (oid, { st with obsCache := alistSet st.obsCache s (oid, layers + 1) })
    | none =>
        .ok (st.nextObsId,
          { st with
              obsCache := alistSet st.obsCache s (st.nextObsId, 1),
              nextObsId := st.nextObsId + 1 })

/-- `on` from the source: `_registerSubscription(event,
this.observe(event).subscribe(next, ...))`.  The topic's patched subscribe
registers the new handle once per stacked wrapper, then `on` registers it
once more. -/
def on' (st : EMState) (event : JSVal) (dest : Nat) :
    Except EMError (Nat × EMState) := do
  let (_, st₁) ← observe st event
  let s := jsKey event
  let (sid, st₂) := patchedSubscribe st₁ s .plain dest
  .ok (sid, _registerSubscription st₂ s sid)

/-- `once` from the source: `this.observe(event).take(1).subscribe(...)`.
`take(1)` derives a fresh stream whose subscribe method is the library one,
so only the explicit `_registerSubscription` records the handle. -/
def once (st : EMState) (event : JSVal) (dest : Nat) :
    Except EMError (Nat × EMState) := do
  let (_, st₁) ← observe st event
  let s := jsKey event
  let (sid, st₂) := coreSubscribe st₁ s (.take1 1) dest
  .ok (sid, _registerSubscription st₂ s sid)

/-- The replay-scheduling block of `latest`
(`if (latestData && true === latestData.hasValue) setImmediate(...)`):
when a latest-value record with `hasValue` exists for the name, append one
`setImmediate` task capturing the subscriber and the record. -/
def latestSchedule (st : EMState) (s : String) (sid : Nat) : EMState :=
  match alistGet st.latestData s with
  | some rid =>
      match alistGet st.records rid with
      | some rec =>
          if rec.hasValue then
            { st with pending := st.pending ++ [(sid, rid)] }
          else st
      | none => st
  | none => st

/-- `latest` from the source: subscribe to the topic (through its patched
subscribe), then, when a latest-value record with `hasValue` exists,
schedule one `setImmediate` task that will deliver that record's value to
the new subscriber; finally register the handle.  Without a callback the
raw topic stream is returned. -/
def latest (st : EMState) (event : JSVal) (dest : Option Nat) :
    Except EMError (Option Nat × EMState) := do
  let (_, st₁) ← observe st event
  match dest with
  | none => .ok (none, st₁)
  | some d =>
    let s := jsKey event
    let (sid, st₂) := patchedSubscribe st₁ s .plain d
    .ok (some sid, _registerSubscription (latestSchedule st₂ s sid) s sid)

/-- `comparer = comparer || _defaultComparer` from the source: a falsy
comparer argument (absent, `undefined`, `null`, `0`, `''`, `false`) is
replaced by `_defaultComparer`; a truthy one is kept as is. -/
def comparerOrDefault (comparer : Option FnArg) : FnArg :=
  let c0 := comparer.getD (FnArg.js .undef)
  if fnArgToBool c0 then c0 else FnArg.fn _defaultComparer

/-- `change` from the source: `comparer = comparer || _defaultComparer`;
reject a (truthy) non-function comparer; then subscribe to
`this.observe(event).distinctUntilChanged(_keySelector)`.  Note that the
source passes `_keySelector` — not the validated `comparer` — as the
compare argument of `distinctUntilChanged`, and that the derived stream is
a fresh object whose subscribe method is not the patched one. -/
def change (st : EMState) (event : JSVal) (comparer : Option FnArg)
    (dest : Option Nat) : Except EMError (Option Nat × EMState) :=
  if _isNotFunction (comparerOrDefault comparer) then .error .invalidComparer
  else do
    let (_, st₁) ← observe st event
    let s := jsKey event
    match dest with
    | none => .ok (none, st₁)
    | some d =>
      let (sid, st₂) :=
        coreSubscribe st₁ s (.distinct keySelectorAsCompare false .undef) d
      .ok (some sid, _registerSubscription st₂ s sid)

/-- Push one envelope `{event := s, data}` through one subscription chain:
the topic filter drops envelopes for other names, the operator state
decides emission and updates (`take(1)` completes and unsubscribes after
its first emission; `distinctUntilChanged` suppresses a value when
`Boolean(compare(previous, current))` is true, updating `previous` only on
emission). -/
def stepSub (s : String) (data : JSVal) (c : CoreSub) :
    CoreSub × Option (Nat × JSVal) :=
  if c.live && (s == c.event) then
    match c.op with
    | .plain => (c, some (c.dest, data))
    | .take1 r =>
        if r == 0 then (c, none)
        else if r == 1 then
          ({ c with op := .take1 0, live := false }, some (c.dest, data))
        else ({ c with op := .take1 (r - 1) }, some (c.dest, data))
    | .distinct cmp hv lv =>
        if hv = false then
          ({ c with op := .distinct cmp true data }, some (c.dest, data))
        else if toBool (cmp lv data) then (c, none)
        else ({ c with op := .distinct cmp hv data }, some (c.dest, data))
  else (c, none)

/-- `eventManagerCore.next({event, data})`: deliver the envelope through
every subscription chain, in subscription order, appending the emissions to
the delivery log. -/
def deliver (st : EMState) (s : String) (data : JSVal) : EMState :=
  let stepped := st.subject.map (stepSub s data)
  { st with
      subject := stepped.map (·.1),
      log := st.log ++ stepped.filterMap (·.2) }

/-- The latest-value-store update performed by `fire`: create the record
`{hasValue: true}` when the name has none, then set its `value` field
(`latestEventData[event].value = data`).  The `none` record branch is
unreachable for states whose bindings all point at stored records. -/
def recordLatest (st : EMState) (s : String) (data : JSVal) : EMState :=
  match alistGet st.latestData s with
  | some rid =>
      match alistGet st.records rid with
      | some rec =>
          { st with records := alistSet st.records rid { rec with value := data } }
      | none =>
          { st with records := alistSet st.records rid ⟨true, data⟩ }
  | none =>
      { st with
          records := alistSet st.records st.nextRecId ⟨true, data⟩,
          latestData := alistSet st.latestData s st.nextRecId,
          nextRecId := st.nextRecId + 1 }

/-- `fire` from the source: validate the name, create or overwrite the
latest-value record, then push the envelope through the broadcast subject. -/
def fire (st : EMState) (event : JSVal) (data : JSVal) :
    Except EMError EMState :=
  if _isInvalidString event then .error .invalidEvent
  else
    let s := jsKey event
    .ok (deliver (recordLatest st s data) s data)

/-- Unsubscribe one handle: mark it closed; already-closed or unknown
handles are a no-op. -/
def unsubscribeId (subj : List CoreSub) (sid : Nat) : List CoreSub :=
  subj.map (fun c => if c.subId == sid then { c with live := false } else c)

/-- Unsubscribe a list of handles in order. -/
def unsubscribeAll (subj : List CoreSub) : List Nat → List CoreSub
  | [] => subj
  | sid :: rest => unsubscribeAll (unsubscribeId subj sid) rest

/-- First half of `off`: when the registry has a collection for the name,
unsubscribe every handle in it and delete the collection. -/
def offSubs (st : EMState) (s : String) : EMState :=
  match alistGet st.registry s with
  | some sids =>
      { st with
          subject := unsubscribeAll st.subject sids,
          registry := alistRemove st.registry s }
  | none => st

/-- Second half of `off`: delete the latest-value binding when present. -/
def offLatest (st : EMState) (s : String) : EMState :=
  match alistGet st.latestData s with
  | some _ => { st with latestData := alistRemove st.latestData s }
  | none => st

/-- `off` from the source: no name validation; unsubscribe every handle
registered for the name and drop the registry entry, then delete the
latest-value binding when present. -/
def off (st : EMState) (event : JSVal) : EMState :=
  offLatest (offSubs st (jsKey event)) (jsKey event)

/-- Run the next `setImmediate` task: the captured closure calls
`observer.next(latestData.value)`, reading the captured record's current
value; a closed subscriber drops the delivery. -/
def tick (st : EMState) : EMState :=
  match st.pending with
  | [] => st
  | (sid, rid) :: rest =>
      match alistGet st.records rid with
      | none => { st with pending := rest }
      | some rec =>
          match st.subject.find? (fun c => c.subId == sid) with
          | some c =>
              if c.live then
                { st with pending := rest,
                          log := st.log ++ [(c.dest, rec.value)] }
              else { st with pending := rest }
          | none => { st with pending := rest }

/-- What `latest` reads: the stored value iff a record with `hasValue`
exists for the name. -/
def peekRecord (st : EMState) (s : String) : Option JSVal :=
  (alistGet st.latestData s).bind fun rid =>
    (alistGet st.records rid).bind fun rec =>
      if rec.hasValue then some rec.value else none

/-- One public operation of the manager, plus a scheduler tick. -/
inductive EMOp where
  | obs (e : JSVal)
  | onOp (e : JSVal) (d : Nat)
  | onceOp (e : JSVal) (d : Nat)
  | latestOp (e : JSVal) (d : Option Nat)
  | changeOp (e : JSVal) (c : Option FnArg) (d : Option Nat)
  | fireOp (e : JSVal) (v : JSVal)
  | offOp (e : JSVal)
  | tickOp

/-- Apply one operation; a validation error leaves the state unchanged
(the error is raised before any side effect). -/
def applyOp (st : EMState) : EMOp → EMState
  | .obs e => match observe st e with | .ok (_, st') => st' | .error _ => st
  | .onOp e d => match on' st e d with | .ok (_, st') => st' | .error _ => st
  | .onceOp e d => match once st e d with | .ok (_, st') => st' | .error _ => st
  | .latestOp e d =>
      match latest st e d with | .ok (_, st') => st' | .error _ => st
  | .changeOp e c d =>
      match change st e c d with | .ok (_, st') => st' | .error _ => st
  | .fireOp e v => match fire st e v with | .ok st' => st' | .error _ => st
  | .offOp e => off st e
  | .tickOp => tick st

/-- Apply a sequence of fires (invalid ones raise and change nothing). -/
def applyFires (st : EMState) : List (JSVal × JSVal) → EMState
  | [] => st
  | (e, v) :: rest =>
      applyFires (match fire st e v with | .ok st' => st' | .error _ => st) rest

/-- Number of deliveries made to listener `d` in a log. -/
def countDest (log : List (Nat × JSVal)) (d : Nat) : Nat :=
  (log.filter (fun p => p.1 == d)).length

/-- Well-formedness of the topic cache: distinct names, distinct stream
object ids, and every cached id below the allocation counter. -/
def obsWF (st : EMState) : Prop :=
  ((st.obsCache.map (·.1)).Nodup) ∧
  ((st.obsCache.map (fun p => p.2.1)).Nodup) ∧
  (∀ p ∈ st.obsCache, p.2.1 < st.nextObsId)

/-- Well-formedness of the latest-value store: distinct names, distinct
record ids, every bound record id below the allocation counter, every
stored record created with `hasValue = true`, and every binding pointing
at a stored record. -/
def recWF (st : EMState) : Prop :=
  ((st.latestData.map (·.1)).Nodup) ∧
  ((st.latestData.map (·.2)).Nodup) ∧
  (∀ p ∈ st.latestData, p.2 < st.nextRecId) ∧
  (∀ p ∈ st.records, p.2.hasValue = true) ∧
  (∀ p ∈ st.latestData, (alistGet st.records p.2).isSome = true)

/-- The operation neither fires on `s` nor turns `s` off. -/
def opAvoids (op : EMOp) (s : String) : Prop :=
  match op with
  | .fireOp e _ => jsKey e ≠ s
  | .offOp e => jsKey e ≠ s
  | _ => True

/-- The id of the stream object `observe` returns (`none` on a validation
error). -/
def observeId (st : EMState) (e : JSVal) : Option Nat :=
  match observe st e with
  | .ok (i, _) => some i
  | .error _ => none

/-- The state `observe` leaves behind (unchanged on a validation error). -/
def observeState (st : EMState) (e : JSVal) : EMState :=
  match observe st e with
  | .ok (_, st') => st'
  | .error _ => st

/-- Remaining emission budget of a subscription's operator (`take(1)`-style
operators only; the bound-accounting below applies where every subscription
of the inspected listener is such an operator). -/
def opCap : OpKind → Nat
  | .take1 r => r
  | _ => 0

/-- Emission budget of one subscription, as seen by listener `d`. -/
def dPot1 (d : Nat) (c : CoreSub) : Nat :=
  if c.dest = d ∧ c.live = true then opCap c.op else 0

/-- Total emission budget of a subject for listener `d`. -/
def dPot (subj : List CoreSub) (d : Nat) : Nat :=
  (subj.map (dPot1 d)).sum

/-- Deliveries to `d` contributed by one optional emission. -/
def emCount (d : Nat) : Option (Nat × JSVal) → Nat
  | some (d', _) => if d' = d then 1 else 0
  | none => 0

/-- A concrete pre-state used to instantiate the hypotheses of the
theorems below: one live plain listener (id 1) subscribed on `"x"`
(registered twice, as one `on` call leaves it), a latest-value record for
`"x"`, and one past delivery. -/
def wOffState : EMState :=
  { subject := [{ subId := 0, event := "x", op := .plain, dest := 1, live := true }],
    obsCache := [("x", 0, 1)], nextObsId := 1, nextSubId := 1,
    registry := [("x", [0, 0])], records := [(0, ⟨true, .num 20⟩)],
    latestData := [("x", 0)], nextRecId := 1, pending := [],
    log := [(1, .num 20)] }

/-- A concrete pre-state with two live plain listeners, one on `"x"` and
one on `"y"`. -/
def wTwoState : EMState :=
  { subject := [{ subId := 0, event := "x", op := .plain, dest := 1, live := true },
                { subId := 1, event := "y", op := .plain, dest := 2, live := true }],
    obsCache := [("x", 0, 1), ("y", 1, 1)], nextObsId := 2, nextSubId := 2,
    registry := [("x", [0, 0]), ("y", [1, 1])], records := [],
    latestData := [], nextRecId := 0, pending := [], log := [] }

section AlistLemmas

variable {κ α : Type} [DecidableEq κ]

theorem alistGet_set_self (l : List (κ × α)) (k : κ) (v : α) :
    alistGet (alistSet l k v) k = some v := by
  induction l with
  | nil => simp [alistGet, alistSet]
  | cons p rest ih =>
      obtain ⟨k', v'⟩ := p
      by_cases h : k = k' <;> simp [alistGet, alistSet, h, ih]

theorem alistGet_set_ne (l : List (κ × α)) (k k' : κ) (v : α)
    (h : k' ≠ k) : alistGet (alistSet l k v) k' = alistGet l k' := by
  induction l with
  | nil => simp [alistGet, alistSet, h]
  | cons p rest ih =>
      obtain ⟨k₀, v₀⟩ := p
      by_cases hk : k = k₀
      · subst hk
        simp [alistGet, alistSet, h]
      · by_cases hk' : k' = k₀ <;> simp [alistGet, alistSet, hk, hk', ih]

theorem alistGet_eq_none (l : List (κ × α)) (k : κ)
    (h : k ∉ l.map (·.1)) : alistGet l k = none := by
  induction l with
  | nil => simp [alistGet]
  | cons p rest ih =>
      obtain ⟨k₀, v₀⟩ := p
      simp only [List.map_cons, List.mem_cons, not_or] at h
      simp [alistGet, h.1, ih h.2]

theorem alistGet_remove_self (l : List (κ × α)) (k : κ)
    (hnd : (l.map (·.1)).Nodup) :
    alistGet (alistRemove l k) k = none := by
  induction l with
  | nil => simp [alistGet, alistRemove]
  | cons p rest ih =>
      obtain ⟨k₀, v₀⟩ := p
      simp only [List.map_cons, List.nodup_cons] at hnd
      by_cases hk : k = k₀
      · subst hk
        simp only [alistRemove, if_pos rfl]
        exact alistGet_eq_none rest k hnd.1
      · simp [alistRemove, hk, alistGet, ih hnd.2]

theorem alistGet_remove_ne (l : List (κ × α)) (k k' : κ) (h : k' ≠ k) :
    alistGet (alistRemove l k) k' = alistGet l k' := by
  induction l with
  | nil => simp [alistRemove]
  | cons p rest ih =>
      obtain ⟨k₀, v₀⟩ := p
      by_cases hk : k = k₀
      · subst hk
        simp [alistRemove, alistGet, h]
      · by_cases hk' : k' = k₀ <;> simp [alistRemove, alistGet, hk, hk', ih]

theorem alistGet_mem (l : List (κ × α)) (k : κ) (v : α)
    (h : alistGet l k = some v) : (k, v) ∈ l := by
  induction l with
  | nil => simp [alistGet] at h
  | cons p rest ih =>
      obtain ⟨k₀, v₀⟩ := p
      by_cases hk : k = k₀
      · subst hk
        simp [alistGet] at h
        simp [h]
      · simp only [alistGet, if_neg hk] at h
        exact List.mem_cons_of_mem _ (ih h)

end AlistLemmas

section FieldLemmas

theorem observe_ok (st : EMState) (e : JSVal)
    (h : _isInvalidString e = false) :
    ∃ i st', observe st e = .ok (i, st') ∧
      st'.subject = st.subject ∧ st'.registry = st.registry ∧
      st'.records = st.records ∧ st'.latestData = st.latestData ∧
      st'.pending = st.pending ∧ st'.log = st.log ∧
      st'.nextSubId = st.nextSubId ∧ st'.nextRecId = st.nextRecId := by
  unfold observe
  rw [h]
  simp only [Bool.false_eq_true, if_false]
  cases hc : alistGet st.obsCache (jsKey e) with
  | none => exact ⟨_, _, rfl, rfl, rfl, rfl, rfl, rfl, rfl, rfl, rfl⟩
  | some p =>
      obtain ⟨oid, layers⟩ := p
      exact ⟨_, _, rfl, rfl, rfl, rfl, rfl, rfl, rfl, rfl, rfl⟩

theorem observe_layers (st : EMState) (e : JSVal) (i : Nat) (st' : EMState)
    (h : observe st e = .ok (i, st')) :
    layersOf st' (jsKey e) = layersOf st (jsKey e) + 1 := by
  unfold observe at h
  by_cases hv : _isInvalidString e
  · rw [hv] at h; simp at h
  · rw [eq_false_of_ne_true hv] at h
    simp only [Bool.false_eq_true, if_false] at h
    cases hc : alistGet st.obsCache (jsKey e) with
    | none =>
        rw [hc] at h
        simp only [Except.ok.injEq, Prod.mk.injEq] at h
        obtain ⟨rfl, rfl⟩ := h
        simp [layersOf, alistGet_set_self, hc]
    | some p =>
        obtain ⟨oid, layers⟩ := p
        rw [hc] at h
        simp only [Except.ok.injEq, Prod.mk.injEq] at h
        obtain ⟨rfl, rfl⟩ := h
        simp [layersOf, alistGet_set_self, hc]

theorem registerTimes_fields (st : EMState) (s : String) (sid n : Nat) :
    (registerTimes st s sid n).subject = st.subject ∧
    (registerTimes st s sid n).obsCache = st.obsCache ∧
    (registerTimes st s sid n).records = st.records ∧
    (registerTimes st s sid n).latestData = st.latestData ∧
    (registerTimes st s sid n).pending = st.pending ∧
    (registerTimes st s sid n).log = st.log ∧
    (registerTimes st s sid n).nextSubId = st.nextSubId ∧
    (registerTimes st s sid n).nextRecId = st.nextRecId := by
  induction n generalizing st with
  | zero => exact ⟨rfl, rfl, rfl, rfl, rfl, rfl, rfl, rfl⟩
  | succ n ih =>
      simpa [registerTimes, _registerSubscription] using ih _

theorem registryOf_register (st : EMState) (s : String) (sid : Nat) :
    registryOf (_registerSubscription st s sid) s = registryOf st s ++ [sid] := by
  unfold _registerSubscription registryOf
  cases h : alistGet st.registry s with
  | none => simp [h, alistGet_set_self]
  | some l => simp [h, alistGet_set_self]

theorem registryOf_registerTimes (st : EMState) (s : String) (sid n : Nat) :
    registryOf (registerTimes st s sid n) s =
      registryOf st s ++ List.replicate n sid := by
  induction n generalizing st with
  | zero => simp [registerTimes]
  | succ n ih =>
      rw [registerTimes, ih, registryOf_register, List.replicate_succ]
      simp

theorem patchedSubscribe_spec (st : EMState) (s : String) (op : OpKind)
    (d : Nat) :
    (patchedSubscribe st s op d).1 = st.nextSubId ∧
    (patchedSubscribe st s op d).2.subject = st.subject ++
      [{ subId := st.nextSubId, event := s, op := op, dest := d, live := true }] ∧
    (patchedSubscribe st s op d).2.records = st.records ∧
    (patchedSubscribe st s op d).2.latestData = st.latestData ∧
    (patchedSubscribe st s op d).2.pending = st.pending ∧
    (patchedSubscribe st s op d).2.log = st.log ∧
    registryOf (patchedSubscribe st s op d).2 s =
      registryOf st s ++ List.replicate (layersOf st s) st.nextSubId := by
  unfold patchedSubscribe coreSubscribe
  refine ⟨rfl, ?_, ?_, ?_, ?_, ?_, ?_⟩
  · exact (registerTimes_fields _ _ _ _).1
  · exact (registerTimes_fields _ _ _ _).2.2.1
  · exact (registerTimes_fields _ _ _ _).2.2.2.1
  · exact (registerTimes_fields _ _ _ _).2.2.2.2.1
  · exact (registerTimes_fields _ _ _ _).2.2.2.2.2.1
  · rw [registryOf_registerTimes]
    rfl

end FieldLemmas

section FireLemmas

theorem fire_eq (st : EMState) (e : JSVal) (v : JSVal)
    (h : _isInvalidString e = false) :
    fire st e v = .ok (deliver (recordLatest st (jsKey e) v) (jsKey e) v) := by
  unfold fire
  rw [h]
  simp

theorem recordLatest_fields (st : EMState) (s : String) (v : JSVal) :
    (recordLatest st s v).subject = st.subject ∧
    (recordLatest st s v).log = st.log ∧
    (recordLatest st s v).pending = st.pending ∧
    (recordLatest st s v).registry = st.registry ∧
    (recordLatest st s v).obsCache = st.obsCache ∧
    (recordLatest st s v).nextSubId = st.nextSubId := by
  unfold recordLatest
  split
  · split <;> exact ⟨rfl, rfl, rfl, rfl, rfl, rfl⟩
  · exact ⟨rfl, rfl, rfl, rfl, rfl, rfl⟩

theorem deliver_log (st : EMState) (s : String) (v : JSVal) :
    (deliver st s v).log =
      st.log ++ (st.subject.map (stepSub s v)).filterMap (·.2) := rfl

theorem deliver_subject (st : EMState) (s : String) (v : JSVal) :
    (deliver st s v).subject = (st.subject.map (stepSub s v)).map (·.1) := rfl

theorem emissions_plain (s : String) (v : JSVal) (l : List CoreSub)
    (h : ∀ c ∈ l, c.event = s → c.live = true → c.op = OpKind.plain) :
    (l.map (stepSub s v)).filterMap (·.2) =
      (l.filter (fun c => c.live && (s == c.event))).map (fun c => (c.dest, v)) := by
  induction l with
  | nil => rfl
  | cons c rest ih =>
      have hrest := ih (fun c hc => h c (List.mem_cons_of_mem _ hc))
      by_cases hg : (c.live && (s == c.event)) = true
      · have hb : c.live = true ∧ (s == c.event) = true := by simpa using hg
        have hev : c.event = s := (beq_iff_eq.mp hb.2).symm
        have hop := h c (List.mem_cons_self _ _) hev hb.1
        have hstep : stepSub s v c = (c, some (c.dest, v)) := by
          unfold stepSub
          rw [hg, hop]
          simp
        rw [List.map_cons, List.filterMap_cons, hstep]
        simp [List.filter_cons, hg, hrest]
      · have hg' : (c.live && (s == c.event)) = false :=
          Bool.eq_false_iff.mpr hg
        have hstep : stepSub s v c = (c, none) := by
          unfold stepSub
          rw [hg']
          simp
        rw [List.map_cons, List.filterMap_cons, hstep]
        simp [List.filter_cons, hg', hrest]

theorem emissions_dead (s : String) (v : JSVal) (l : List CoreSub)
    (h : ∀ c ∈ l, c.event = s → c.live = false) :
    (l.map (stepSub s v)).filterMap (·.2) = [] := by
  induction l with
  | nil => rfl
  | cons c rest ih =>
      have hrest := ih (fun c hc => h c (List.mem_cons_of_mem _ hc))
      have hg : (c.live && (s == c.event)) = false := by
        by_cases hev : c.event = s
        · simp [h c (List.mem_cons_self _ _) hev]
        · have hb : (s == c.event) = false :=
            beq_eq_false_iff_ne.mpr (fun hh => hev hh.symm)
          simp [hb]
      have hstep : stepSub s v c = (c, none) := by
        unfold stepSub
        rw [hg]
        simp
      simp only [List.map_cons, List.filterMap_cons, hstep]
      exact hrest

end FireLemmas

section ValidationLemmas

theorem observe_invalid (st : EMState) (e : JSVal)
    (h : _isInvalidString e = true) :
    observe st e = .error .invalidEvent := by
  unfold observe
  rw [h]
  simp

theorem on_invalid (st : EMState) (e : JSVal) (d : Nat)
    (h : _isInvalidString e = true) :
    on' st e d = .error .invalidEvent := by
  unfold on'
  rw [observe_invalid st e h]
  rfl

theorem once_invalid (st : EMState) (e : JSVal) (d : Nat)
    (h : _isInvalidString e = true) :
    once st e d = .error .invalidEvent := by
  unfold once
  rw [observe_invalid st e h]
  rfl

theorem latest_invalid (st : EMState) (e : JSVal) (d : Option Nat)
    (h : _isInvalidString e = true) :
    latest st e d = .error .invalidEvent := by
  unfold latest
  rw [observe_invalid st e h]
  rfl

theorem fire_invalid (st : EMState) (e v : JSVal)
    (h : _isInvalidString e = true) :
    fire st e v = .error .invalidEvent := by
  unfold fire
  rw [h]
  simp

theorem change_invalid (st : EMState) (e : JSVal) (c : Option FnArg)
    (d : Option Nat) (h : _isInvalidString e = true) :
    ∃ err, change st e c d = .error err := by
  unfold change
  by_cases hc : _isNotFunction (comparerOrDefault c) = true
  · rw [if_pos hc]
    exact ⟨_, rfl⟩
  · rw [if_neg hc, observe_invalid st e h]
    exact ⟨_, rfl⟩

end ValidationLemmas

/-- C1: for a valid (non-empty string) event name, `fire(name, v)` returns
normally and, before returning, appends to the delivery log exactly one
delivery of `v` per live listener whose topic filter is `name`, taken in
subject order — which is subscription order, because subscriptions are
always appended.  In particular every listener currently registered on
`name` (all of which are plain subscriptions, per the hypothesis) receives
`v`, and no listener subscribed on a string-unequal name receives
anything from this call. -/
theorem fire_delivers_to_name (st : EMState) (e v : JSVal)
    (hval : _isInvalidString e = false)
    (hplain : ∀ c ∈ st.subject, c.event = jsKey e → c.live = true →
      c.op = OpKind.plain) :
    ∃ st', fire st e v = .ok st' ∧
      st'.log = st.log ++
        (st.subject.filter (fun c => c.live && (jsKey e == c.event))).map
          (fun c => (c.dest, v)) := by
  refine ⟨_, fire_eq st e v hval, ?_⟩
  rw [deliver_log, (recordLatest_fields st (jsKey e) v).1,
    (recordLatest_fields st (jsKey e) v).2.1,
    emissions_plain _ _ _ hplain]

/-- Witness for C1 at a concrete state: a listener on `"x"` and one on
`"y"`; firing `"x"` delivers `5` exactly to the `"x"` listener. -/
theorem fire_delivers_to_name_witness :
    ∃ st', fire wTwoState (JSVal.str "x") (JSVal.num 5) = .ok st' ∧
      st'.log = wTwoState.log ++
        (wTwoState.subject.filter
            (fun c => c.live && (jsKey (JSVal.str "x") == c.event))).map
          (fun c => (c.dest, JSVal.num 5)) :=
  fire_delivers_to_name wTwoState (JSVal.str "x") (JSVal.num 5) rfl (by
    intro c hc he hl
    simp only [wTwoState, List.mem_cons, List.mem_singleton] at hc
    rcases hc with rfl | hc
    · rfl
    · rcases hc with rfl | hc
      · rfl
      · exact absurd hc (List.not_mem_nil c))

/-- C3 counterexample: `off` performs no name validation.  Called with the
invalid (empty-string) event name it raises nothing and returns normally —
in the source, `off` goes straight to the `subscriptions` lookup — so the
claim that `off` raises a validation error on an invalid name is false.
Here the lookup misses and the call is a complete no-op. -/
theorem off_accepts_invalid_name : off emInit (JSVal.str "") = emInit := rfl

/-- C3 (amended): `observe`, `on`, `once`, `latest`, `change` and `fire`
raise a validation error synchronously, before any side effect (the state
is not threaded out of the error), whenever the event name is not a
non-empty string; `off` alone performs no such validation. -/
theorem invalid_name_raises (st : EMState) (e : JSVal)
    (h : _isInvalidString e = true) :
    observe st e = .error .invalidEvent ∧
    (∀ d, on' st e d = .error .invalidEvent) ∧
    (∀ d, once st e d = .error .invalidEvent) ∧
    (∀ d, latest st e d = .error .invalidEvent) ∧
    (∀ c d, ∃ err, change st e c d = .error err) ∧
    (∀ v, fire st e v = .error .invalidEvent) :=
  ⟨observe_invalid st e h,
   fun d => on_invalid st e d h,
   fun d => once_invalid st e d h,
   fun d => latest_invalid st e d h,
   fun c d => change_invalid st e c d h,
   fun v => fire_invalid st e v h⟩

/-- Witness for C3 (amended) at the number `0` as event name. -/
theorem invalid_name_raises_witness :
    fire emInit (JSVal.num 0) (JSVal.num 1) = .error .invalidEvent :=
  (invalid_name_raises emInit (JSVal.num 0) rfl).2.2.2.2.2 (JSVal.num 1)

/-- C9 counterexample: a falsy non-callable comparer does not raise.  With
comparer `0`, `change` replaces it by `_defaultComparer`
(`comparer || _defaultComparer`) and succeeds instead of raising a
validation error. -/
theorem change_accepts_falsy_comparer :
    ∃ r, change emInit (JSVal.str "x") (some (FnArg.js (JSVal.num 0)))
      none = .ok r :=
  ⟨_, rfl⟩

/-- C9 (amended): a truthy non-callable comparer raises the validation
error; a falsy non-callable comparer is silently replaced by the default
comparer, so the call behaves exactly as if no comparer had been given. -/
theorem change_comparer_validation (st : EMState) (e : JSVal) (v : JSVal)
    (d : Option Nat) :
    (toBool v = true →
      change st e (some (FnArg.js v)) d = .error .invalidComparer) ∧
    (toBool v = false →
      change st e (some (FnArg.js v)) d = change st e none d) := by
  constructor
  · intro hv
    have h1 : comparerOrDefault (some (FnArg.js v)) = FnArg.js v := by
      unfold comparerOrDefault
      simp [fnArgToBool, hv]
    unfold change
    rw [h1]
    rfl
  · intro hv
    have h1 : comparerOrDefault (some (FnArg.js v)) = FnArg.fn _defaultComparer := by
      unfold comparerOrDefault
      simp [fnArgToBool, hv]
    have h2 : comparerOrDefault none = FnArg.fn _defaultComparer := rfl
    unfold change
    rw [h1, h2]

/-- Witness for C9 (amended): the truthy non-callable comparer `1`
raises, and the falsy non-callable comparer `null` behaves like the
default. -/
theorem change_comparer_validation_witness :
    change emInit (JSVal.str "x") (some (FnArg.js (JSVal.num 1))) none =
      .error .invalidComparer ∧
    change emInit (JSVal.str "x") (some (FnArg.js JSVal.null)) none =
      change emInit (JSVal.str "x") none none :=
  ⟨(change_comparer_validation emInit (JSVal.str "x") (JSVal.num 1) none).1 rfl,
   (change_comparer_validation emInit (JSVal.str "x") JSVal.null none).2 rfl⟩

/-- C2 (code bug): subscribing through `change` with the default comparer
and firing `1, 1, 2` delivers only `1` — not `1` then `2` as the claim
(and the method's own documentation) requires.  The RxJS 5 port passes
`_keySelector` as the compare argument of `distinctUntilChanged` and drops
the validated user comparer entirely, so any payload following a truthy
previously-emitted one is suppressed (`Boolean(compare(prev, cur)) =
Boolean(prev)`), regardless of equality or of any supplied comparer. -/
theorem change_collapses_everything_after_truthy :
    (([EMOp.changeOp (JSVal.str "x") none (some 7),
       EMOp.fireOp (JSVal.str "x") (JSVal.num 1),
       EMOp.fireOp (JSVal.str "x") (JSVal.num 1),
       EMOp.fireOp (JSVal.str "x") (JSVal.num 2)]).foldl applyOp emInit).log
      = [(7, JSVal.num 1)] := rfl

/-- C10 counterexample: after two `on("x", ...)` calls the registry
collection for `"x"` holds five entries, not the four (2k) the claim
predicts: every `observe` call stacks one more auto-registering wrapper on
the cached topic's `subscribe`, so the second `on` registers its handle
three times (two wrappers plus the explicit registration). -/
theorem on_registers_quadratically :
    (registryOf (([EMOp.onOp (JSVal.str "x") 1,
        EMOp.onOp (JSVal.str "x") 2]).foldl applyOp emInit) "x").length
      = 5 := rfl

theorem registryOf_congr (st st' : EMState) (h : st'.registry = st.registry)
    (s : String) : registryOf st' s = registryOf st s := by
  unfold registryOf
  rw [h]

theorem on_eq (st : EMState) (e : JSVal) (d : Nat)
    (hval : _isInvalidString e = false) :
    on' st e d = .ok
      ((patchedSubscribe (observeState st e) (jsKey e) .plain d).1,
       _registerSubscription
         (patchedSubscribe (observeState st e) (jsKey e) .plain d).2
         (jsKey e)
         (patchedSubscribe (observeState st e) (jsKey e) .plain d).1) := by
  obtain ⟨i, st₁, hobs, _⟩ := observe_ok st e hval
  unfold on' observeState
  rw [hobs]
  rfl

theorem once_eq (st : EMState) (e : JSVal) (d : Nat)
    (hval : _isInvalidString e = false) :
    once st e d = .ok
      ((coreSubscribe (observeState st e) (jsKey e) (.take1 1) d).1,
       _registerSubscription
         (coreSubscribe (observeState st e) (jsKey e) (.take1 1) d).2
         (jsKey e)
         (coreSubscribe (observeState st e) (jsKey e) (.take1 1) d).1) := by
  obtain ⟨i, st₁, hobs, _⟩ := observe_ok st e hval
  unfold once observeState
  rw [hobs]
  rfl

theorem coreSubscribe_registryOf (st : EMState) (s : String) (op : OpKind)
    (d : Nat) (s' : String) :
    registryOf (coreSubscribe st s op d).2 s' = registryOf st s' := rfl

theorem observeState_fields (st : EMState) (e : JSVal)
    (hval : _isInvalidString e = false) :
    (observeState st e).subject = st.subject ∧
    (observeState st e).registry = st.registry ∧
    (observeState st e).records = st.records ∧
    (observeState st e).latestData = st.latestData ∧
    (observeState st e).pending = st.pending ∧
    (observeState st e).log = st.log ∧
    (observeState st e).nextSubId = st.nextSubId ∧
    (observeState st e).nextRecId = st.nextRecId := by
  obtain ⟨i, st₁, hobs, hfs⟩ := observe_ok st e hval
  unfold observeState
  rw [hobs]
  exact hfs

theorem observeState_layers (st : EMState) (e : JSVal)
    (hval : _isInvalidString e = false) :
    layersOf (observeState st e) (jsKey e) = layersOf st (jsKey e) + 1 := by
  obtain ⟨i, st₁, hobs, _⟩ := observe_ok st e hval
  unfold observeState
  rw [hobs]
  exact observe_layers st e i st₁ hobs

/-- C10 (amended): an `on(name, cb)` call registers its handle once per
wrapper stacked on the cached topic's `subscribe` method — the `observe`
call inside `on` having just stacked one more — plus once explicitly, so
a call made when `layersOf` wrappers are already present adds
`layersOf + 2` registry entries (2 on the first call for a name, 3 on the
second, and so on, quadratic in total).  A `once(name, cb)` call adds
exactly one entry: `take(1)` derives a fresh stream whose subscribe method
is the library one, bypassing the patched auto-registration. -/
theorem on_once_registration_count (st : EMState) (e : JSVal) (d : Nat)
    (hval : _isInvalidString e = false) :
    (∃ sid st', on' st e d = .ok (sid, st') ∧
       registryOf st' (jsKey e) = registryOf st (jsKey e) ++
         List.replicate (layersOf st (jsKey e) + 1) sid ++ [sid]) ∧
    (∃ sid st', once st e d = .ok (sid, st') ∧
       registryOf st' (jsKey e) = registryOf st (jsKey e) ++ [sid]) := by
  constructor
  · refine ⟨_, _, on_eq st e d hval, ?_⟩
    rw [registryOf_register]
    have hspec := patchedSubscribe_spec (observeState st e) (jsKey e) .plain d
    rw [hspec.2.2.2.2.2.2]
    rw [registryOf_congr _ _ (observeState_fields st e hval).2.1]
    rw [observeState_layers st e hval]
    rw [hspec.1]
  · refine ⟨_, _, once_eq st e d hval, ?_⟩
    rw [registryOf_register, coreSubscribe_registryOf,
      registryOf_congr _ _ (observeState_fields st e hval).2.1]

theorem observe_hit (st : EMState) (e : JSVal) (oid L : Nat)
    (hval : _isInvalidString e = false)
    (hc : alistGet st.obsCache (jsKey e) = some (oid, L)) :
    observeId st e = some oid ∧
    (observeState st e).obsCache = alistSet st.obsCache (jsKey e) (oid, L + 1) ∧
    (observeState st e).nextObsId = st.nextObsId := by
  unfold observeId observeState observe
  rw [hval]
  simp [hc]

theorem observe_miss (st : EMState) (e : JSVal)
    (hval : _isInvalidString e = false)
    (hc : alistGet st.obsCache (jsKey e) = none) :
    observeId st e = some st.nextObsId ∧
    (observeState st e).obsCache =
      alistSet st.obsCache (jsKey e) (st.nextObsId, 1) ∧
    (observeState st e).nextObsId = st.nextObsId + 1 := by
  unfold observeId observeState observe
  rw [hval]
  simp [hc]

/-- C6: starting from any state whose topic cache is well formed, calling
`observe(name)` twice returns the same (cached) topic stream object, while
calling it for a different name returns a distinct object: the second
call's id equals the first's, and the id obtained for a string-unequal
name differs from it. -/
theorem observe_cached_topics (st : EMState) (e₁ e₂ : JSVal)
    (hwf : obsWF st) (h₁ : _isInvalidString e₁ = false)
    (h₂ : _isInvalidString e₂ = false) (hne : jsKey e₁ ≠ jsKey e₂) :
    observeId (observeState st e₁) e₁ = observeId st e₁ ∧
    observeId (observeState st e₁) e₂ ≠ observeId st e₁ := by
  obtain ⟨hkeys, hoids, hlt⟩ := hwf
  cases hc₁ : alistGet st.obsCache (jsKey e₁) with
  | some p =>
      obtain ⟨oid, L⟩ := p
      obtain ⟨hid₁, hcache₁, hnext₁⟩ := observe_hit st e₁ oid L h₁ hc₁
      have hself : alistGet (observeState st e₁).obsCache (jsKey e₁) =
          some (oid, L + 1) := by
        rw [hcache₁]
        exact alistGet_set_self _ _ _
      have hother : alistGet (observeState st e₁).obsCache (jsKey e₂) =
          alistGet st.obsCache (jsKey e₂) := by
        rw [hcache₁]
        exact alistGet_set_ne _ _ _ _ (Ne.symm hne)
      constructor
      · rw [(observe_hit (observeState st e₁) e₁ oid (L + 1) h₁ hself).1, hid₁]
      · rw [hid₁]
        cases hc₂ : alistGet st.obsCache (jsKey e₂) with
        | some q =>
            obtain ⟨oid₂, L₂⟩ := q
            rw [(observe_hit (observeState st e₁) e₂ oid₂ L₂ h₂
              (hother.trans hc₂)).1]
            intro hcon
            have hoid : oid₂ = oid := by simpa using hcon
            have hm₁ := alistGet_mem _ _ _ hc₁
            have hm₂ := alistGet_mem _ _ _ hc₂
            have hpair := List.inj_on_of_nodup_map hoids hm₂ hm₁
              (by simp [hoid])
            exact hne (congrArg Prod.fst hpair).symm
        | none =>
            rw [(observe_miss (observeState st e₁) e₂ h₂
              (hother.trans hc₂)).1, hnext₁]
            intro hcon
            have hmem := alistGet_mem _ _ _ hc₁
            have hbound := hlt _ hmem
            simp only [Option.some.injEq] at hcon
            simp only [] at hbound
            omega
  | none =>
      obtain ⟨hid₁, hcache₁, hnext₁⟩ := observe_miss st e₁ h₁ hc₁
      have hself : alistGet (observeState st e₁).obsCache (jsKey e₁) =
          some (st.nextObsId, 1) := by
        rw [hcache₁]
        exact alistGet_set_self _ _ _
      have hother : alistGet (observeState st e₁).obsCache (jsKey e₂) =
          alistGet st.obsCache (jsKey e₂) := by
        rw [hcache₁]
        exact alistGet_set_ne _ _ _ _ (Ne.symm hne)
      constructor
      · rw [(observe_hit (observeState st e₁) e₁ st.nextObsId 1 h₁ hself).1,
          hid₁]
      · rw [hid₁]
        cases hc₂ : alistGet st.obsCache (jsKey e₂) with
        | some q =>
            obtain ⟨oid₂, L₂⟩ := q
            rw [(observe_hit (observeState st e₁) e₂ oid₂ L₂ h₂
              (hother.trans hc₂)).1]
            intro hcon
            have hmem := alistGet_mem _ _ _ hc₂
            have hbound := hlt _ hmem
            simp only [Option.some.injEq] at hcon
            simp only [] at hbound
            omega
        | none =>
            rw [(observe_miss (observeState st e₁) e₂ h₂
              (hother.trans hc₂)).1, hnext₁]
            intro hcon
            simp only [Option.some.injEq] at hcon
            omega

/-- Witness for C6 on the initial state with names `"a"` and `"b"`. -/
theorem observe_cached_topics_witness :
    observeId (observeState emInit (JSVal.str "a")) (JSVal.str "a") =
      observeId emInit (JSVal.str "a") ∧
    observeId (observeState emInit (JSVal.str "a")) (JSVal.str "b") ≠
      observeId emInit (JSVal.str "a") :=
  observe_cached_topics emInit (JSVal.str "a") (JSVal.str "b")
    (by refine ⟨?_, ?_, ?_⟩ <;> simp [emInit]) rfl rfl
    (by decide)

theorem register_fields (st : EMState) (s : String) (sid : Nat) :
    (_registerSubscription st s sid).subject = st.subject ∧
    (_registerSubscription st s sid).records = st.records ∧
    (_registerSubscription st s sid).latestData = st.latestData ∧
    (_registerSubscription st s sid).pending = st.pending ∧
    (_registerSubscription st s sid).log = st.log :=
  ⟨rfl, rfl, rfl, rfl, rfl⟩

theorem latestSchedule_fields (st : EMState) (s : String) (sid : Nat) :
    (latestSchedule st s sid).subject = st.subject ∧
    (latestSchedule st s sid).records = st.records ∧
    (latestSchedule st s sid).latestData = st.latestData ∧
    (latestSchedule st s sid).registry = st.registry ∧
    (latestSchedule st s sid).log = st.log := by
  unfold latestSchedule
  split
  · split
    · split <;> exact ⟨rfl, rfl, rfl, rfl, rfl⟩
    · exact ⟨rfl, rfl, rfl, rfl, rfl⟩
  · exact ⟨rfl, rfl, rfl, rfl, rfl⟩

theorem latestSchedule_hit (st : EMState) (s : String) (sid rid : Nat)
    (rec : LatestRec) (h1 : alistGet st.latestData s = some rid)
    (h2 : alistGet st.records rid = some rec) (h3 : rec.hasValue = true) :
    latestSchedule st s sid = { st with pending := st.pending ++ [(sid, rid)] } := by
  unfold latestSchedule
  split
  · rename_i rid' heq
    rw [h1] at heq
    obtain rfl : rid' = rid := by injection heq.symm
    split
    · rename_i rec' heq2
      rw [h2] at heq2
      obtain rfl : rec' = rec := by injection heq2.symm
      rw [h3]
      simp
    · rename_i heq2
      rw [h2] at heq2
      cases heq2
  · rename_i heq
    rw [h1] at heq
    cases heq

theorem latestSchedule_miss (st : EMState) (s : String) (sid : Nat)
    (h1 : alistGet st.latestData s = none) :
    latestSchedule st s sid = st := by
  unfold latestSchedule
  rw [h1]

theorem latest_eq (st : EMState) (e : JSVal) (d : Nat)
    (hval : _isInvalidString e = false) :
    latest st e (some d) = .ok
      (some (patchedSubscribe (observeState st e) (jsKey e) .plain d).1,
       _registerSubscription
         (latestSchedule
           (patchedSubscribe (observeState st e) (jsKey e) .plain d).2
           (jsKey e)
           (patchedSubscribe (observeState st e) (jsKey e) .plain d).1)
         (jsKey e)
         (patchedSubscribe (observeState st e) (jsKey e) .plain d).1) := by
  obtain ⟨i, st₁, hobs, _⟩ := observe_ok st e hval
  unfold latest observeState
  rw [hobs]
  rfl

theorem tick_step (st : EMState) (sid rid : Nat) (rest : List (Nat × Nat))
    (hpend : st.pending = (sid, rid) :: rest) (rec : LatestRec)
    (hrec : alistGet st.records rid = some rec) (c : CoreSub)
    (hfind : st.subject.find? (fun c => c.subId == sid) = some c)
    (hlive : c.live = true) :
    tick st = { st with pending := rest,
                        log := st.log ++ [(c.dest, rec.value)] } := by
  unfold tick
  split
  · rename_i heq
    rw [hpend] at heq
    cases heq
  · rename_i sid' rid' rest' heq
    rw [hpend] at heq
    injection heq with h1 h2
    injection h1 with h3 h4
    subst h3
    subst h4
    subst h2
    split
    · rename_i heq2
      rw [hrec] at heq2
      cases heq2
    · rename_i rec' heq2
      rw [hrec] at heq2
      obtain rfl : rec' = rec := by injection heq2.symm
      split
      · rename_i c' hfind'
        rw [hfind] at hfind'
        obtain rfl : c' = c := by injection hfind'.symm
        rw [hlive]
        simp
      · rename_i hfind'
        rw [hfind] at hfind'
        cases hfind'

theorem peekRecord_eq_some (st : EMState) (s : String) (v : JSVal) :
    peekRecord st s = some v ↔
    ∃ rid rec, alistGet st.latestData s = some rid ∧
      alistGet st.records rid = some rec ∧ rec.hasValue = true ∧
      rec.value = v := by
  unfold peekRecord
  cases h1 : alistGet st.latestData s with
  | none => simp
  | some rid =>
      simp only [Option.some_bind]
      cases h2 : alistGet st.records rid with
      | none => simp [h2]
      | some rec =>
          simp only [Option.some_bind]
          by_cases h3 : rec.hasValue = true <;> simp [h2, h3]

theorem peekRecord_congr (st st' : EMState) (s : String)
    (h1 : st'.records = st.records) (h2 : st'.latestData = st.latestData) :
    peekRecord st' s = peekRecord st s := by
  unfold peekRecord
  rw [h1, h2]

theorem deliver_store (st : EMState) (s : String) (v : JSVal) :
    (deliver st s v).records = st.records ∧
    (deliver st s v).latestData = st.latestData ∧
    (deliver st s v).pending = st.pending ∧
    (deliver st s v).registry = st.registry :=
  ⟨rfl, rfl, rfl, rfl⟩

theorem tick_store (st : EMState) :
    (tick st).records = st.records ∧ (tick st).latestData = st.latestData := by
  unfold tick
  split
  · exact ⟨rfl, rfl⟩
  · split
    · exact ⟨rfl, rfl⟩
    · split
      · split
        · exact ⟨rfl, rfl⟩
        · exact ⟨rfl, rfl⟩
      · exact ⟨rfl, rfl⟩

theorem latestSchedule_of_peek_none (st : EMState) (s : String) (sid : Nat)
    (h : peekRecord st s = none) : latestSchedule st s sid = st := by
  unfold peekRecord at h
  unfold latestSchedule
  split
  · rename_i rid heq
    rw [heq, Option.some_bind] at h
    split
    · rename_i rec heq2
      rw [heq2, Option.some_bind] at h
      split at h
      · cases h
      · rename_i hv
        rw [Bool.not_eq_true] at hv
        rw [hv]
        simp
    · rfl
  · rfl

theorem recordLatest_peek_self (st : EMState) (s : String) (v : JSVal)
    (hwf : recWF st) : peekRecord (recordLatest st s v) s = some v := by
  obtain ⟨hkeys, hrids, hlt, hrecs, hbound⟩ := hwf
  unfold recordLatest
  split
  · rename_i rid heq
    split
    · rename_i rec heq2
      unfold peekRecord
      simp only [heq, Option.some_bind, alistGet_set_self]
      have : rec.hasValue = true := hrecs _ (alistGet_mem _ _ _ heq2)
      simp [this]
    · rename_i heq2
      have := hbound _ (alistGet_mem _ _ _ heq)
      rw [heq2] at this
      cases this
  · rename_i heq
    unfold peekRecord
    simp [alistGet_set_self]

theorem recordLatest_peek_other (st : EMState) (s' s : String) (v : JSVal)
    (hne : s' ≠ s) (hwf : recWF st) :
    peekRecord (recordLatest st s' v) s = peekRecord st s := by
  obtain ⟨hkeys, hrids, hlt, hrecs, hbound⟩ := hwf
  unfold recordLatest
  split
  · rename_i rid' heq
    have hset : ∀ r : LatestRec, peekRecord
        { st with records := alistSet st.records rid' r } s = peekRecord st s := by
      intro r
      unfold peekRecord
      simp only []
      cases hgs : alistGet st.latestData s with
      | none => rfl
      | some rid =>
          have hm1 := alistGet_mem _ _ _ heq
          have hm2 := alistGet_mem _ _ _ hgs
          have hridne : rid ≠ rid' := by
            intro hcon
            have hpair := List.inj_on_of_nodup_map hrids hm2 hm1 (by simp [hcon])
            exact hne (congrArg Prod.fst hpair).symm
          simp only [Option.some_bind]
          rw [alistGet_set_ne _ _ _ _ hridne]
    split
    · exact hset _
    · exact hset _
  · rename_i heq
    unfold peekRecord
    simp only []
    rw [alistGet_set_ne _ _ _ _ (Ne.symm hne)]
    cases hgs : alistGet st.latestData s with
    | none => rfl
    | some rid =>
        have hridne : rid ≠ st.nextRecId := by
          have := hlt _ (alistGet_mem _ _ _ hgs)
          simp only [] at this
          omega
        simp only [Option.some_bind]
        rw [alistGet_set_ne _ _ _ _ hridne]

theorem offSubs_fields (st : EMState) (s : String) :
    (offSubs st s).records = st.records ∧
    (offSubs st s).latestData = st.latestData ∧
    (offSubs st s).pending = st.pending ∧
    (offSubs st s).log = st.log ∧
    (offSubs st s).nextSubId = st.nextSubId ∧
    (offSubs st s).obsCache = st.obsCache ∧
    (offSubs st s).nextObsId = st.nextObsId ∧
    (offSubs st s).nextRecId = st.nextRecId := by
  unfold offSubs
  split <;> exact ⟨rfl, rfl, rfl, rfl, rfl, rfl, rfl, rfl⟩

theorem offLatest_fields (st : EMState) (s : String) :
    (offLatest st s).subject = st.subject ∧
    (offLatest st s).registry = st.registry ∧
    (offLatest st s).records = st.records ∧
    (offLatest st s).pending = st.pending ∧
    (offLatest st s).log = st.log ∧
    (offLatest st s).nextSubId = st.nextSubId ∧
    (offLatest st s).obsCache = st.obsCache ∧
    (offLatest st s).nextObsId = st.nextObsId ∧
    (offLatest st s).nextRecId = st.nextRecId := by
  unfold offLatest
  split <;> exact ⟨rfl, rfl, rfl, rfl, rfl, rfl, rfl, rfl, rfl⟩

theorem off_fields (st : EMState) (e : JSVal) :
    (off st e).records = st.records ∧ (off st e).pending = st.pending ∧
    (off st e).log = st.log ∧ (off st e).nextSubId = st.nextSubId ∧
    (off st e).obsCache = st.obsCache := by
  unfold off
  refine ⟨?_, ?_, ?_, ?_, ?_⟩
  · rw [(offLatest_fields _ _).2.2.1, (offSubs_fields _ _).1]
  · rw [(offLatest_fields _ _).2.2.2.1, (offSubs_fields _ _).2.2.1]
  · rw [(offLatest_fields _ _).2.2.2.2.1, (offSubs_fields _ _).2.2.2.1]
  · rw [(offLatest_fields _ _).2.2.2.2.2.1, (offSubs_fields _ _).2.2.2.2.1]
  · rw [(offLatest_fields _ _).2.2.2.2.2.2.1, (offSubs_fields _ _).2.2.2.2.2.1]

theorem off_peek_self (st : EMState) (e : JSVal)
    (hnd : (st.latestData.map (·.1)).Nodup) :
    peekRecord (off st e) (jsKey e) = none := by
  unfold off offLatest
  have hlat : (offSubs st (jsKey e)).latestData = st.latestData :=
    (offSubs_fields _ _).2.1
  split
  · rename_i heq
    unfold peekRecord
    simp only [hlat]
    rw [alistGet_remove_self _ _ hnd]
    rfl
  · rename_i heq
    rw [hlat] at heq
    unfold peekRecord
    rw [hlat, heq]
    rfl

theorem off_peek_other (st : EMState) (e : JSVal) (s : String)
    (hne : jsKey e ≠ s) : peekRecord (off st e) s = peekRecord st s := by
  unfold off offLatest
  have hlat : (offSubs st (jsKey e)).latestData = st.latestData :=
    (offSubs_fields _ _).2.1
  have hrec : (offSubs st (jsKey e)).records = st.records :=
    (offSubs_fields _ _).1
  split
  · unfold peekRecord
    simp only [hlat, hrec]
    rw [alistGet_remove_ne _ _ _ (Ne.symm hne)]
  · unfold peekRecord
    rw [hlat, hrec]

theorem unsubscribeAll_eq (sids : List Nat) (subj : List CoreSub) :
    unsubscribeAll subj sids =
      subj.map (fun c => if c.subId ∈ sids then { c with live := false } else c) := by
  induction sids generalizing subj with
  | nil =>
      unfold unsubscribeAll
      simp
  | cons a rest ih =>
      unfold unsubscribeAll unsubscribeId
      rw [ih, List.map_map]
      apply List.map_congr_left
      intro c _
      by_cases ha : c.subId = a
      · by_cases hr : c.subId ∈ rest <;>
          simp [Function.comp, ha, hr, List.mem_cons]
      · have ha' : (c.subId == a) = false := by simp [ha]
        by_cases hr : c.subId ∈ rest <;>
          simp [Function.comp, ha, ha', hr, List.mem_cons]

/-- C4: when a value was previously recorded for the name, `latest(name,
cb)` subscribes `cb` and schedules exactly one asynchronous delivery of
the stored value: the call itself appends nothing to the delivery log
(nothing is delivered synchronously inside `latest`), it appends exactly
one task to the `setImmediate` queue, and running that task — necessarily
after `latest` has returned — delivers the stored value to `cb` exactly
once and leaves no further task. -/
theorem latest_replays_async (st : EMState) (e : JSVal) (d : Nat) (v : JSVal)
    (hval : _isInvalidString e = false)
    (hpeek : peekRecord st (jsKey e) = some v)
    (hpend : st.pending = [])
    (hfresh : ∀ c ∈ st.subject, c.subId ≠ st.nextSubId) :
    ∃ sid st', latest st e (some d) = .ok (some sid, st') ∧
      st'.log = st.log ∧
      (∃ rid, st'.pending = [(sid, rid)]) ∧
      (tick st').log = st.log ++ [(d, v)] ∧
      (tick st').pending = [] := by
  obtain ⟨rid, rec, hrid, hrec, hhv, hvv⟩ := (peekRecord_eq_some _ _ _).mp hpeek
  have hosf := observeState_fields st e hval
  have hps := patchedSubscribe_spec (observeState st e) (jsKey e) .plain d
  set p := patchedSubscribe (observeState st e) (jsKey e) OpKind.plain d with hp
  have hsid : p.1 = st.nextSubId := hps.1.trans hosf.2.2.2.2.2.2.1
  have hlat2 : p.2.latestData = st.latestData :=
    hps.2.2.2.1.trans hosf.2.2.2.1
  have hrec2 : p.2.records = st.records := hps.2.2.1.trans hosf.2.2.1
  have hpend2 : p.2.pending = [] := (hps.2.2.2.2.1.trans hosf.2.2.2.2.1).trans hpend
  have hlog2 : p.2.log = st.log := hps.2.2.2.2.2.1.trans hosf.2.2.2.2.2.1
  have hsubj2 : p.2.subject = st.subject ++
      [{ subId := st.nextSubId, event := jsKey e, op := .plain, dest := d,
         live := true }] := by
    rw [hps.2.1, hosf.1, hosf.2.2.2.2.2.2.1]
  have hsched : latestSchedule p.2 (jsKey e) p.1 =
      { p.2 with pending := p.2.pending ++ [(p.1, rid)] } :=
    latestSchedule_hit p.2 (jsKey e) p.1 rid rec
      (hlat2.symm ▸ hrid) (hrec2.symm ▸ hrec) hhv
  refine ⟨p.1, _, latest_eq st e d hval, ?_, ?_, ?_, ?_⟩
  · rw [(register_fields _ _ _).2.2.2.2, hsched, hlog2]
  · exact ⟨rid, by rw [(register_fields _ _ _).2.2.2.1, hsched, hpend2]; rfl⟩
  · have hpend' : (_registerSubscription (latestSchedule p.2 (jsKey e) p.1)
        (jsKey e) p.1).pending = [(p.1, rid)] := by
      rw [(register_fields _ _ _).2.2.2.1, hsched, hpend2]
      rfl
    have hrec' : alistGet (_registerSubscription (latestSchedule p.2 (jsKey e)
        p.1) (jsKey e) p.1).records rid = some rec := by
      rw [(register_fields _ _ _).2.1, (latestSchedule_fields _ _ _).2.1, hrec2,
        hrec]
    have hsubj' : (_registerSubscription (latestSchedule p.2 (jsKey e) p.1)
        (jsKey e) p.1).subject = st.subject ++
        [{ subId := st.nextSubId, event := jsKey e, op := .plain, dest := d,
           live := true }] := by
      rw [(register_fields _ _ _).1, (latestSchedule_fields _ _ _).1, hsubj2]
    have hlog' : (_registerSubscription (latestSchedule p.2 (jsKey e) p.1)
        (jsKey e) p.1).log = st.log := by
      rw [(register_fields _ _ _).2.2.2.2, (latestSchedule_fields _ _ _).2.2.2.2,
        hlog2]
    have hfind : ((_registerSubscription (latestSchedule p.2 (jsKey e) p.1)
        (jsKey e) p.1).subject.find? (fun c => c.subId == p.1)) =
        some { subId := st.nextSubId, event := jsKey e, op := OpKind.plain,
               dest := d, live := true } := by
      rw [hsubj', hsid, List.find?_append]
      have hnone : st.subject.find? (fun c => c.subId == st.nextSubId) = none := by
        rw [List.find?_eq_none]
        intro c hc
        simp [hfresh c hc]
      rw [hnone, Option.none_or]
      simp [List.find?]
    rw [tick_step _ p.1 rid [] hpend' rec hrec' _ hfind rfl]
    simp only [hlog', hvv]
  · have hpend' : (_registerSubscription (latestSchedule p.2 (jsKey e) p.1)
        (jsKey e) p.1).pending = [(p.1, rid)] := by
      rw [(register_fields _ _ _).2.2.2.1, hsched, hpend2]
      rfl
    have hrec' : alistGet (_registerSubscription (latestSchedule p.2 (jsKey e)
        p.1) (jsKey e) p.1).records rid = some rec := by
      rw [(register_fields _ _ _).2.1, (latestSchedule_fields _ _ _).2.1, hrec2,
        hrec]
    have hsubj' : (_registerSubscription (latestSchedule p.2 (jsKey e) p.1)
        (jsKey e) p.1).subject = st.subject ++
        [{ subId := st.nextSubId, event := jsKey e, op := .plain, dest := d,
           live := true }] := by
      rw [(register_fields _ _ _).1, (latestSchedule_fields _ _ _).1, hsubj2]
    have hfind : ((_registerSubscription (latestSchedule p.2 (jsKey e) p.1)
        (jsKey e) p.1).subject.find? (fun c => c.subId == p.1)) =
        some { subId := st.nextSubId, event := jsKey e, op := OpKind.plain,
               dest := d, live := true } := by
      rw [hsubj', hsid, List.find?_append]
      have hnone : st.subject.find? (fun c => c.subId == st.nextSubId) = none := by
        rw [List.find?_eq_none]
        intro c hc
        simp [hfresh c hc]
      rw [hnone, Option.none_or]
      simp [List.find?]
    rw [tick_step _ p.1 rid [] hpend' rec hrec' _ hfind rfl]

/-- Witness for C4 at a state holding a recorded value `20` for `"x"`:
`latest("x", cb)` delivers nothing synchronously, queues one task, and the
task delivers `20` to the callback exactly once. -/
theorem latest_replays_async_witness :
    ∃ sid st', latest wOffState (JSVal.str "x") (some 9) = .ok (some sid, st') ∧
      st'.log = wOffState.log ∧
      (∃ rid, st'.pending = [(sid, rid)]) ∧
      (tick st').log = wOffState.log ++ [(9, JSVal.num 20)] ∧
      (tick st').pending = [] :=
  latest_replays_async wOffState (JSVal.str "x") 9 (JSVal.num 20) rfl rfl rfl
    (by
      intro c hc
      simp only [wOffState, List.mem_singleton] at hc
      subst hc
      decide)

theorem coreSubscribe_fields (st : EMState) (s : String) (op : OpKind)
    (d : Nat) :
    (coreSubscribe st s op d).2.records = st.records ∧
    (coreSubscribe st s op d).2.latestData = st.latestData ∧
    (coreSubscribe st s op d).2.pending = st.pending ∧
    (coreSubscribe st s op d).2.log = st.log ∧
    (coreSubscribe st s op d).2.registry = st.registry :=
  ⟨rfl, rfl, rfl, rfl, rfl⟩

theorem latest_none_eq (st : EMState) (e : JSVal)
    (hval : _isInvalidString e = false) :
    latest st e none = .ok (none, observeState st e) := by
  obtain ⟨i, st₁, hobs, _⟩ := observe_ok st e hval
  unfold latest observeState
  rw [hobs]
  rfl

theorem change_err (st : EMState) (e : JSVal) (c : Option FnArg)
    (d : Option Nat) (hc : _isNotFunction (comparerOrDefault c) = true) :
    change st e c d = .error .invalidComparer := by
  unfold change
  rw [hc]
  simp

theorem change_none_eq (st : EMState) (e : JSVal) (c : Option FnArg)
    (hc : _isNotFunction (comparerOrDefault c) = false)
    (hval : _isInvalidString e = false) :
    change st e c none = .ok (none, observeState st e) := by
  obtain ⟨i, st₁, hobs, _⟩ := observe_ok st e hval
  unfold change observeState
  rw [hc]
  simp only [Bool.false_eq_true, if_false]
  rw [hobs]
  rfl

theorem change_some_eq (st : EMState) (e : JSVal) (c : Option FnArg) (d : Nat)
    (hc : _isNotFunction (comparerOrDefault c) = false)
    (hval : _isInvalidString e = false) :
    change st e c (some d) = .ok
      (some (coreSubscribe (observeState st e) (jsKey e)
        (.distinct keySelectorAsCompare false .undef) d).1,
       _registerSubscription
         (coreSubscribe (observeState st e) (jsKey e)
           (.distinct keySelectorAsCompare false .undef) d).2
         (jsKey e)
         (coreSubscribe (observeState st e) (jsKey e)
           (.distinct keySelectorAsCompare false .undef) d).1) := by
  obtain ⟨i, st₁, hobs, _⟩ := observe_ok st e hval
  unfold change observeState
  rw [hc]
  simp only [Bool.false_eq_true, if_false]
  rw [hobs]
  rfl

theorem peek_preserved (st : EMState) (s : String) (op : EMOp)
    (havoid : opAvoids op s) (hwf : recWF st) :
    peekRecord (applyOp st op) s = peekRecord st s := by
  cases op with
  | obs e =>
      by_cases hv : _isInvalidString e = true
      · simp only [applyOp]
        rw [observe_invalid st e hv]
      · have hv' := eq_false_of_ne_true hv
        obtain ⟨i, st₁, hobs, hfs⟩ := observe_ok st e hv'
        simp only [applyOp]
        rw [hobs]
        exact peekRecord_congr _ _ _ hfs.2.2.1 hfs.2.2.2.1
  | onOp e d =>
      by_cases hv : _isInvalidString e = true
      · simp only [applyOp]
        rw [on_invalid st e d hv]
      · have hv' := eq_false_of_ne_true hv
        simp only [applyOp]
        rw [on_eq st e d hv']
        refine peekRecord_congr _ _ _ ?_ ?_
        · rw [(register_fields _ _ _).2.1, (patchedSubscribe_spec _ _ _ _).2.2.1,
            (observeState_fields st e hv').2.2.1]
        · rw [(register_fields _ _ _).2.2.1,
            (patchedSubscribe_spec _ _ _ _).2.2.2.1,
            (observeState_fields st e hv').2.2.2.1]
  | onceOp e d =>
      by_cases hv : _isInvalidString e = true
      · simp only [applyOp]
        rw [once_invalid st e d hv]
      · have hv' := eq_false_of_ne_true hv
        simp only [applyOp]
        rw [once_eq st e d hv']
        refine peekRecord_congr _ _ _ ?_ ?_
        · rw [(register_fields _ _ _).2.1, (coreSubscribe_fields _ _ _ _).1,
            (observeState_fields st e hv').2.2.1]
        · rw [(register_fields _ _ _).2.2.1, (coreSubscribe_fields _ _ _ _).2.1,
            (observeState_fields st e hv').2.2.2.1]
  | latestOp e dd =>
      by_cases hv : _isInvalidString e = true
      · simp only [applyOp]
        rw [latest_invalid st e dd hv]
      · have hv' := eq_false_of_ne_true hv
        cases dd with
        | none =>
            simp only [applyOp]
            rw [latest_none_eq st e hv']
            exact peekRecord_congr _ _ _ (observeState_fields st e hv').2.2.1
              (observeState_fields st e hv').2.2.2.1
        | some d =>
            simp only [applyOp]
            rw [latest_eq st e d hv']
            refine peekRecord_congr _ _ _ ?_ ?_
            · rw [(register_fields _ _ _).2.1, (latestSchedule_fields _ _ _).2.1,
                (patchedSubscribe_spec _ _ _ _).2.2.1,
                (observeState_fields st e hv').2.2.1]
            · rw [(register_fields _ _ _).2.2.1,
                (latestSchedule_fields _ _ _).2.2.1,
                (patchedSubscribe_spec _ _ _ _).2.2.2.1,
                (observeState_fields st e hv').2.2.2.1]
  | changeOp e c dd =>
      by_cases hc : _isNotFunction (comparerOrDefault c) = true
      · simp only [applyOp]
        rw [change_err st e c dd hc]
      · have hc' := eq_false_of_ne_true hc
        by_cases hv : _isInvalidString e = true
        · obtain ⟨err, herr⟩ := change_invalid st e c dd hv
          simp only [applyOp]
          rw [herr]
        · have hv' := eq_false_of_ne_true hv
          cases dd with
          | none =>
              simp only [applyOp]
              rw [change_none_eq st e c hc' hv']
              exact peekRecord_congr _ _ _ (observeState_fields st e hv').2.2.1
                (observeState_fields st e hv').2.2.2.1
          | some d =>
              simp only [applyOp]
              rw [change_some_eq st e c d hc' hv']
              refine peekRecord_congr _ _ _ ?_ ?_
              · rw [(register_fields _ _ _).2.1,
                  (coreSubscribe_fields _ _ _ _).1,
                  (observeState_fields st e hv').2.2.1]
              · rw [(register_fields _ _ _).2.2.1,
                  (coreSubscribe_fields _ _ _ _).2.1,
                  (observeState_fields st e hv').2.2.2.1]
  | fireOp e v =>
      by_cases hv : _isInvalidString e = true
      · simp only [applyOp]
        rw [fire_invalid st e v hv]
      · have hv' := eq_false_of_ne_true hv
        have hne : jsKey e ≠ s := havoid
        simp only [applyOp]
        rw [fire_eq st e v hv']
        exact (peekRecord_congr _ _ _ (deliver_store _ _ _).1
          (deliver_store _ _ _).2.1).trans
          (recordLatest_peek_other st (jsKey e) s v hne hwf)
  | offOp e =>
      exact off_peek_other st e s havoid
  | tickOp =>
      exact peekRecord_congr _ _ _ (tick_store st).1 (tick_store st).2

/-- C7: for a valid name, (a) `fire(name, v)` synchronously makes the
latest-value record read back as `v` (so `hasValue` is true from the first
fire on and the stored value is overwritten on every fire); (b) every
operation that neither fires on `name` nor turns `name` off leaves the
record exactly as it was; (c) `off(name)` deletes the whole record; and
(d) `latest` reads exactly this record: it schedules no replay task when
no record is readable, and schedules exactly one task referencing the
record whose stored value is the readable one otherwise. -/
theorem latest_record_invariant (st : EMState) (e : JSVal) (v : JSVal)
    (hval : _isInvalidString e = false) (hwf : recWF st) :
    (∀ st', fire st e v = .ok st' → peekRecord st' (jsKey e) = some v) ∧
    (∀ op, opAvoids op (jsKey e) →
        peekRecord (applyOp st op) (jsKey e) = peekRecord st (jsKey e)) ∧
    peekRecord (off st e) (jsKey e) = none ∧
    (∀ dd : Nat,
      (peekRecord st (jsKey e) = none →
        ∃ sid st', latest st e (some dd) = .ok (some sid, st') ∧
          st'.pending = st.pending) ∧
      (∀ w, peekRecord st (jsKey e) = some w →
        ∃ sid st' rid rec, latest st e (some dd) = .ok (some sid, st') ∧
          alistGet st.latestData (jsKey e) = some rid ∧
          alistGet st.records rid = some rec ∧ rec.value = w ∧
          st'.pending = st.pending ++ [(sid, rid)])) := by
  have hosf := observeState_fields st e hval
  refine ⟨?_, ?_, ?_, ?_⟩
  · intro st' h
    rw [fire_eq st e v hval] at h
    have hst : st' = deliver (recordLatest st (jsKey e) v) (jsKey e) v := by
      injection h with h'
      exact h'.symm
    subst hst
    exact (peekRecord_congr _ _ _ (deliver_store _ _ _).1
      (deliver_store _ _ _).2.1).trans
      (recordLatest_peek_self st (jsKey e) v hwf)
  · intro op havoid
    exact peek_preserved st (jsKey e) op havoid hwf
  · exact off_peek_self st e hwf.1
  · intro dd
    have hps := patchedSubscribe_spec (observeState st e) (jsKey e) .plain dd
    have hpeekP : peekRecord
        (patchedSubscribe (observeState st e) (jsKey e) OpKind.plain dd).2
        (jsKey e) = peekRecord st (jsKey e) :=
      peekRecord_congr _ _ _ (hps.2.2.1.trans hosf.2.2.1)
        (hps.2.2.2.1.trans hosf.2.2.2.1)
    constructor
    · intro hpk
      refine ⟨_, _, latest_eq st e dd hval, ?_⟩
      rw [(register_fields _ _ _).2.2.2.1,
        latestSchedule_of_peek_none _ _ _ (hpeekP.trans hpk),
        hps.2.2.2.2.1, hosf.2.2.2.2.1]
    · intro w hpk
      obtain ⟨rid, rec, hrid, hrec, hhv, hvv⟩ := (peekRecord_eq_some _ _ _).mp hpk
      refine ⟨_, _, rid, rec, latest_eq st e dd hval, hrid, hrec, hvv, ?_⟩
      rw [(register_fields _ _ _).2.2.2.1,
        latestSchedule_hit _ _ _ rid rec
          ((hps.2.2.2.1.trans hosf.2.2.2.1).symm ▸ hrid)
          ((hps.2.2.1.trans hosf.2.2.1).symm ▸ hrec) hhv]
      simp only []
      rw [hps.2.2.2.2.1, hosf.2.2.2.2.1, hps.1, hosf.2.2.2.2.2.2.1]

/-- Witness for C7: firing `"x"` on the fresh state makes the record read
back `7`; `off` on the listener state deletes the record. -/
theorem latest_record_invariant_witness :
    peekRecord (off wOffState (JSVal.str "x")) (jsKey (JSVal.str "x")) = none :=
  (latest_record_invariant wOffState (JSVal.str "x") (JSVal.num 7) rfl
    (by refine ⟨?_, ?_, ?_, ?_, ?_⟩ <;> decide)).2.2.1

/-- Witness for C10 (amended): the first `on("x", ...)` call on the fresh
state registers its handle twice. -/
theorem on_once_registration_count_witness :
    ∃ sid st', on' emInit (JSVal.str "x") 1 = .ok (sid, st') ∧
      registryOf st' (jsKey (JSVal.str "x")) =
        registryOf emInit (jsKey (JSVal.str "x")) ++
          List.replicate (layersOf emInit (jsKey (JSVal.str "x")) + 1) sid ++
          [sid] :=
  (on_once_registration_count emInit (JSVal.str "x") 1 rfl).1

theorem filter_live_nil (s : String) (l : List CoreSub)
    (h : ∀ c ∈ l, c.event = s → c.live = false) :
    l.filter (fun c => c.live && (s == c.event)) = [] := by
  induction l with
  | nil => rfl
  | cons c rest ih =>
      have hrest := ih (fun c hc => h c (List.mem_cons_of_mem _ hc))
      have hg : (c.live && (s == c.event)) = false := by
        by_cases hev : c.event = s
        · simp [h c (List.mem_cons_self _ _) hev]
        · have hb : (s == c.event) = false :=
            beq_eq_false_iff_ne.mpr (fun hh => hev hh.symm)
          simp [hb]
      simp [List.filter_cons, hg, hrest]

theorem off_kills (st : EMState) (e : JSVal)
    (hcover : ∀ c ∈ st.subject, c.event = jsKey e → c.live = true →
      c.subId ∈ registryOf st (jsKey e)) :
    ∀ c ∈ (off st e).subject, c.event = jsKey e → c.live = false := by
  intro c hc hev
  unfold off at hc
  rw [(offLatest_fields _ _).1] at hc
  cases hr : alistGet st.registry (jsKey e) with
  | some sids =>
      have hc' : c ∈ unsubscribeAll st.subject sids := by
        unfold offSubs at hc
        rw [hr] at hc
        exact hc
      rw [unsubscribeAll_eq] at hc'
      obtain ⟨c₀, hc₀, rfl⟩ := List.mem_map.mp hc'
      by_cases hmem : c₀.subId ∈ sids
      · rw [if_pos hmem]
      · rw [if_neg hmem]
        rw [if_neg hmem] at hev
        by_cases hl : c₀.live = true
        · have := hcover c₀ hc₀ hev hl
          rw [registryOf, hr] at this
          exact absurd this hmem
        · exact Bool.not_eq_true _ |>.mp hl
  | none =>
      have hc' : c ∈ st.subject := by
        unfold offSubs at hc
        rw [hr] at hc
        exact hc
      by_cases hl : c.live = true
      · have := hcover c hc' hev hl
        rw [registryOf, hr] at this
        exact absurd this (List.not_mem_nil _)
      · exact Bool.not_eq_true _ |>.mp hl

/-- C8: `off(name)` cancels every registered listener for `name` and
clears the replay value: (1) no live subscription on `name` survives;
(2) the latest-value record reads back as absent; (3) a `latest(name, cb)`
issued after the `off` schedules no replay task; (4) a `fire(name, x)`
after the `off` delivers nothing (the log is unchanged); (5) a listener
newly registered through `on` after the `off` does observe a subsequent
fire; and (6) `off` on a name with no registry collection and no
latest-value binding is a complete no-op. -/
theorem off_cancels_and_clears (st : EMState) (e : JSVal)
    (hval : _isInvalidString e = false) (hwf : recWF st)
    (hcover : ∀ c ∈ st.subject, c.event = jsKey e → c.live = true →
      c.subId ∈ registryOf st (jsKey e)) :
    (∀ c ∈ (off st e).subject, c.event = jsKey e → c.live = false) ∧
    peekRecord (off st e) (jsKey e) = none ∧
    (∀ dd : Nat, ∃ sid st₂,
       latest (off st e) e (some dd) = .ok (some sid, st₂) ∧
       st₂.pending = (off st e).pending) ∧
    (∀ v, ∃ st₂, fire (off st e) e v = .ok st₂ ∧
       st₂.log = (off st e).log) ∧
    (∀ d v, ∃ sid st₁ st₂, on' (off st e) e d = .ok (sid, st₁) ∧
       fire st₁ e v = .ok st₂ ∧ st₂.log = st₁.log ++ [(d, v)]) ∧
    (alistGet st.registry (jsKey e) = none →
      alistGet st.latestData (jsKey e) = none → off st e = st) := by
  have hkills := off_kills st e hcover
  have hpeek := off_peek_self st e hwf.1
  refine ⟨hkills, hpeek, ?_, ?_, ?_, ?_⟩
  · intro dd
    have hosf := observeState_fields (off st e) e hval
    have hps := patchedSubscribe_spec (observeState (off st e) e) (jsKey e)
      .plain dd
    have hpeekP : peekRecord
        (patchedSubscribe (observeState (off st e) e) (jsKey e)
          OpKind.plain dd).2 (jsKey e) = none :=
      ((peekRecord_congr _ _ _ (hps.2.2.1.trans hosf.2.2.1)
        (hps.2.2.2.1.trans hosf.2.2.2.1)).trans hpeek)
    refine ⟨_, _, latest_eq (off st e) e dd hval, ?_⟩
    rw [(register_fields _ _ _).2.2.2.1,
      latestSchedule_of_peek_none _ _ _ hpeekP,
      hps.2.2.2.2.1, hosf.2.2.2.2.1]
  · intro v
    refine ⟨_, fire_eq (off st e) e v hval, ?_⟩
    rw [deliver_log, (recordLatest_fields _ _ _).1,
      (recordLatest_fields _ _ _).2.1,
      emissions_dead _ _ _ hkills, List.append_nil]
  · intro d v
    have hosf := observeState_fields (off st e) e hval
    have hps := patchedSubscribe_spec (observeState (off st e) e) (jsKey e)
      .plain d
    refine ⟨_, _, _, on_eq (off st e) e d hval, fire_eq _ e v hval, ?_⟩
    have hsubj : (_registerSubscription
        (patchedSubscribe (observeState (off st e) e) (jsKey e) .plain d).2
        (jsKey e)
        (patchedSubscribe (observeState (off st e) e) (jsKey e) .plain d).1).subject
        = (off st e).subject ++
          [{ subId := (off st e).nextSubId, event := jsKey e, op := .plain,
             dest := d, live := true }] := by
      rw [(register_fields _ _ _).1, hps.2.1, hosf.1, hosf.2.2.2.2.2.2.1]
    rw [deliver_log, (recordLatest_fields _ _ _).1,
      (recordLatest_fields _ _ _).2.1]
    have hplain : ∀ c ∈ (_registerSubscription
        (patchedSubscribe (observeState (off st e) e) (jsKey e) .plain d).2
        (jsKey e)
        (patchedSubscribe (observeState (off st e) e) (jsKey e) .plain d).1).subject,
        c.event = jsKey e → c.live = true → c.op = OpKind.plain := by
      rw [hsubj]
      intro c hcm hev hl
      rcases List.mem_append.mp hcm with hin | hin
      · have := hkills c hin hev
        rw [this] at hl
        cases hl
      · rw [List.mem_singleton.mp hin]
    rw [emissions_plain _ _ _ hplain, hsubj, List.filter_append,
      filter_live_nil _ _ hkills]
    simp
  · intro hreg hlat
    unfold off
    have h1 : offSubs st (jsKey e) = st := by
      unfold offSubs
      rw [hreg]
    rw [h1]
    unfold offLatest
    rw [hlat]

/-- Witness for C8: firing `"x"` right after `off("x")` delivers nothing. -/
theorem off_cancels_and_clears_witness :
    ∃ st₂, fire (off wOffState (JSVal.str "x")) (JSVal.str "x")
        (JSVal.num 25) = .ok st₂ ∧
      st₂.log = (off wOffState (JSVal.str "x")).log :=
  (off_cancels_and_clears wOffState (JSVal.str "x") rfl
    (by refine ⟨?_, ?_, ?_, ?_, ?_⟩ <;> decide)
    (by
      intro c hc hev hl
      simp only [wOffState, List.mem_singleton] at hc
      subst hc
      decide)).2.2.2.1 (JSVal.num 25)

theorem countDest_cons (x : Nat × JSVal) (t : List (Nat × JSVal)) (d : Nat) :
    countDest (x :: t) d = emCount d (some x) + countDest t d := by
  unfold countDest emCount
  by_cases hx : x.1 = d
  · simp [List.filter_cons, hx]
    omega
  · have hx' : (x.1 == d) = false := by simp [hx]
    simp [List.filter_cons, hx', hx]

theorem countDest_append (a b : List (Nat × JSVal)) (d : Nat) :
    countDest (a ++ b) d = countDest a d + countDest b d := by
  unfold countDest
  rw [List.filter_append, List.length_append]

theorem dPot_cons (c : CoreSub) (t : List CoreSub) (d : Nat) :
    dPot (c :: t) d = dPot1 d c + dPot t d := by
  unfold dPot
  simp

theorem dPot_append (a b : List CoreSub) (d : Nat) :
    dPot (a ++ b) d = dPot a d + dPot b d := by
  unfold dPot
  simp

theorem dPot_zero (l : List CoreSub) (d : Nat)
    (h : ∀ c ∈ l, c.dest ≠ d) : dPot l d = 0 := by
  induction l with
  | nil => rfl
  | cons c rest ih =>
      rw [dPot_cons, ih (fun c hc => h c (List.mem_cons_of_mem _ hc))]
      unfold dPot1
      simp [h c (List.mem_cons_self _ _)]

theorem stepSub_dest (s : String) (v : JSVal) (c : CoreSub) :
    (stepSub s v c).1.dest = c.dest := by
  unfold stepSub
  split
  · split
    · rfl
    · split
      · rfl
      · split
        · rfl
        · rfl
    · split
      · rfl
      · split
        · rfl
        · rfl
  · rfl

theorem stepSub_take (s : String) (v : JSVal) (c : CoreSub) (r : Nat)
    (h : c.op = OpKind.take1 r) :
    ∃ r', (stepSub s v c).1.op = OpKind.take1 r' := by
  unfold stepSub
  split
  · rw [h]
    split
    · rename_i heq
      cases heq
    · rename_i r' heq
      injection heq with hr
      subst hr
      split
      · exact ⟨r, h⟩
      · split
        · exact ⟨0, rfl⟩
        · exact ⟨r - 1, rfl⟩
    · rename_i cmp hv lv heq
      cases heq
  · exact ⟨r, h⟩

theorem stepSub_pot (s : String) (v : JSVal) (d : Nat) (c : CoreSub)
    (h : c.dest = d → ∃ r, c.op = OpKind.take1 r) :
    emCount d (stepSub s v c).2 + dPot1 d (stepSub s v c).1 ≤ dPot1 d c := by
  by_cases hd : c.dest = d
  · obtain ⟨r, hop⟩ := h hd
    unfold stepSub
    split
    · rename_i hguard
      have hlive : c.live = true ∧ (s == c.event) = true := by simpa using hguard
      rw [hop]
      split
      · rename_i heq
        cases heq
      · rename_i r' heq
        injection heq with hr
        subst hr
        split
        · simp [emCount, dPot1]
        · split
          · rename_i h0 h1
            have hr : r = 1 := by simpa using h1
            subst hr
            simp [emCount, dPot1, opCap, hd, hlive.1, hop]
          · rename_i h0 h1
            have hr0 : ¬r = 0 := by simpa using h0
            simp [emCount, dPot1, opCap, hd, hlive.1, hop]
            omega
      · rename_i cmp hv lv heq
        cases heq
    · simp [emCount]
  · have hdest := stepSub_dest s v c
    have hpot1 : dPot1 d (stepSub s v c).1 = 0 := by
      unfold dPot1
      rw [hdest]
      simp [hd]
    have hpot0 : dPot1 d c = 0 := by
      unfold dPot1
      simp [hd]
    have hem : emCount d (stepSub s v c).2 = 0 := by
      unfold stepSub
      split
      · split
        · simp [emCount, hd]
        · split
          · simp [emCount]
          · split
            · simp [emCount, hd]
            · simp [emCount, hd]
        · split
          · simp [emCount, hd]
          · split
            · simp [emCount]
            · simp [emCount, hd]
      · simp [emCount]
    omega

theorem deliver_pot (s : String) (v : JSVal) (d : Nat) (l : List CoreSub)
    (h : ∀ c ∈ l, c.dest = d → ∃ r, c.op = OpKind.take1 r) :
    countDest ((l.map (stepSub s v)).filterMap (·.2)) d +
      dPot ((l.map (stepSub s v)).map (·.1)) d ≤ dPot l d ∧
    (∀ c ∈ (l.map (stepSub s v)).map (·.1), c.dest = d →
      ∃ r, c.op = OpKind.take1 r) := by
  induction l with
  | nil => exact ⟨by simp [countDest, dPot], by simp⟩
  | cons c rest ih =>
      obtain ⟨ihle, ihinv⟩ := ih (fun c hc => h c (List.mem_cons_of_mem _ hc))
      have hc := h c (List.mem_cons_self _ _)
      have hstep := stepSub_pot s v d c hc
      constructor
      · have hcount : countDest (((c :: rest).map (stepSub s v)).filterMap (·.2)) d
            = emCount d (stepSub s v c).2 +
              countDest ((rest.map (stepSub s v)).filterMap (·.2)) d := by
          rw [List.map_cons, List.filterMap_cons]
          cases hcse : (stepSub s v c).2 with
          | none => simp [emCount]
          | some x => rw [countDest_cons]
        rw [hcount, List.map_cons, List.map_cons, dPot_cons, dPot_cons]
        omega
      · intro c' hc' hdest
        rw [List.map_cons, List.map_cons] at hc'
        rcases List.mem_cons.mp hc' with rfl | hin
        · rcases hc ((stepSub_dest s v c).symm ▸ hdest) with ⟨r, hop⟩
          exact stepSub_take s v c r hop
        · exact ihinv c' hin hdest

theorem fire_pot (st : EMState) (e v : JSVal) (d : Nat)
    (h : ∀ c ∈ st.subject, c.dest = d → ∃ r, c.op = OpKind.take1 r) :
    ∀ st', fire st e v = .ok st' →
      (∃ tail, st'.log = st.log ++ tail ∧
        countDest tail d + dPot st'.subject d ≤ dPot st.subject d) ∧
      (∀ c ∈ st'.subject, c.dest = d → ∃ r, c.op = OpKind.take1 r) := by
  intro st' hfire
  by_cases hv : _isInvalidString e = true
  · rw [fire_invalid st e v hv] at hfire
    cases hfire
  · rw [fire_eq st e v (eq_false_of_ne_true hv)] at hfire
    have hst : st' = deliver (recordLatest st (jsKey e) v) (jsKey e) v := by
      injection hfire with h'
      exact h'.symm
    subst hst
    have hsub : (recordLatest st (jsKey e) v).subject = st.subject :=
      (recordLatest_fields _ _ _).1
    have hdp := deliver_pot (jsKey e) v d st.subject h
    constructor
    · refine ⟨(st.subject.map (stepSub (jsKey e) v)).filterMap (·.2), ?_, ?_⟩
      · rw [deliver_log, hsub, (recordLatest_fields _ _ _).2.1]
      · rw [deliver_subject, hsub]
        exact hdp.1
    · intro c hc hdest
      rw [deliver_subject, hsub] at hc
      exact hdp.2 c hc hdest

theorem applyFires_pot (d : Nat) (fs : List (JSVal × JSVal)) :
    ∀ st : EMState, (∀ c ∈ st.subject, c.dest = d → ∃ r, c.op = OpKind.take1 r) →
      ∃ tail, (applyFires st fs).log = st.log ++ tail ∧
        countDest tail d + dPot (applyFires st fs).subject d ≤
          dPot st.subject d := by
  induction fs with
  | nil =>
      intro st h
      exact ⟨[], by simp [applyFires], by simp [countDest, applyFires]⟩
  | cons p rest ih =>
      intro st h
      obtain ⟨e, v⟩ := p
      unfold applyFires
      cases hf : fire st e v with
      | error err =>
          show ∃ tail, (applyFires st rest).log = st.log ++ tail ∧
            countDest tail d + dPot (applyFires st rest).subject d ≤
              dPot st.subject d
          exact ih st h
      | ok st' =>
          show ∃ tail, (applyFires st' rest).log = st.log ++ tail ∧
            countDest tail d + dPot (applyFires st' rest).subject d ≤
              dPot st.subject d
          obtain ⟨⟨tail1, hlog1, hle1⟩, hinv'⟩ := fire_pot st e v d h st' hf
          obtain ⟨tail2, hlog2, hle2⟩ := ih st' hinv'
          refine ⟨tail1 ++ tail2, ?_, ?_⟩
          · rw [hlog2, hlog1, List.append_assoc]
          · rw [countDest_append]
            omega

/-- C5: a listener registered via `once(name, cb)` receives at most one
payload in total: whatever sequence of further `fire` calls follows (on
any names, with any payloads), the deliveries made to `cb` after the
`once` call number at most one.  The `take(1)` operator state decrements
on its single delivery and closes the subscription, so no later envelope
can reach the listener. -/
theorem once_delivers_at_most_once (st : EMState) (e : JSVal) (d : Nat)
    (hval : _isInvalidString e = false)
    (hfresh : ∀ c ∈ st.subject, c.dest ≠ d) :
    ∃ sid st₁, once st e d = .ok (sid, st₁) ∧
      ∀ fs : List (JSVal × JSVal), ∃ tail,
        (applyFires st₁ fs).log = st₁.log ++ tail ∧ countDest tail d ≤ 1 := by
  refine ⟨_, _, once_eq st e d hval, ?_⟩
  intro fs
  have hosf := observeState_fields st e hval
  have hsubj : (_registerSubscription
      (coreSubscribe (observeState st e) (jsKey e) (.take1 1) d).2 (jsKey e)
      (coreSubscribe (observeState st e) (jsKey e) (.take1 1) d).1).subject =
      st.subject ++
        [{ subId := (observeState st e).nextSubId, event := jsKey e,
           op := .take1 1, dest := d, live := true }] := by
    rw [(register_fields _ _ _).1]
    show (observeState st e).subject ++ _ = _
    rw [hosf.1]
  have hstart : ∀ c ∈ (_registerSubscription
      (coreSubscribe (observeState st e) (jsKey e) (.take1 1) d).2 (jsKey e)
      (coreSubscribe (observeState st e) (jsKey e) (.take1 1) d).1).subject,
      c.dest = d → ∃ r, c.op = OpKind.take1 r := by
    rw [hsubj]
    intro c hcm hdest
    rcases List.mem_append.mp hcm with hin | hin
    · exact absurd hdest (hfresh c hin)
    · rw [List.mem_singleton.mp hin]
      exact ⟨1, rfl⟩
  obtain ⟨tail, hlog, hle⟩ := applyFires_pot d fs _ hstart
  refine ⟨tail, hlog, ?_⟩
  have hpot : dPot (_registerSubscription
      (coreSubscribe (observeState st e) (jsKey e) (.take1 1) d).2 (jsKey e)
      (coreSubscribe (observeState st e) (jsKey e) (.take1 1) d).1).subject d
      = 1 := by
    rw [hsubj, dPot_append, dPot_zero st.subject d hfresh]
    simp [dPot, dPot1, opCap]
  rw [hpot] at hle
  omega

/-- Witness for C5: `once("x", cb)` on a fresh state followed by two fires
of `"x"` yields at most one delivery to `cb`. -/
theorem once_delivers_at_most_once_witness :
    ∃ sid st₁, once emInit (JSVal.str "x") 5 = .ok (sid, st₁) ∧
      ∃ tail, (applyFires st₁
          [(JSVal.str "x", JSVal.num 1), (JSVal.str "x", JSVal.num 2)]).log =
        st₁.log ++ tail ∧ countDest tail 5 ≤ 1 := by
  obtain ⟨sid, st₁, h1, h2⟩ := once_delivers_at_most_once emInit
    (JSVal.str "x") 5 rfl (by intro c hc; cases hc)
  exact ⟨sid, st₁, h1,
    h2 [(JSVal.str "x", JSVal.num 1), (JSVal.str "x", JSVal.num 2)]⟩

end RxEM
